import Mathlib

/-!
pankif/eventstorage: the hex-grouped binary log and the line-delimited event store.

A shallow embedding of `binarylog.go` and `eventstorage.go`.

* Byte slices and Go strings are `List Byte` with `Byte = Fin 256`.
* `bytes.Buffer` is the list of its unread bytes; `Write` appends at the end.
* A segment file is the list of its bytes.  A call of `os.File.Write` either
  succeeds and appends the whole payload, or fails having appended some
  strict initial part of it; which of the two happens at the k-th write call
  of a store is given by an environment `Nat → WriteOutcome`.
* Go `int`/`int64` counters that start at zero and are only incremented or
  reset are `Nat`; values a caller can set (thresholds, periods, `count`,
  `offset`) are `Int`.  Wrap-around at 2^63 is not modelled.
* Locks are not modelled: every operation is taken as one atomic step.
-/

/-- One octet. -/
abbrev Byte := Fin 256

/-! ## `encoding/hex` of the Go standard library -/

namespace hex

/-- The table `hextable = "0123456789abcdef"`, indexed by a nibble. -/
def hextable (n : Nat) : Byte :=
  if n < 10 then Fin.ofNat (48 + n) else Fin.ofNat (87 + n)

/-- The table `reverseHexTable`: the value of a hexadecimal digit, `none` where the table
holds `0xff`. -/
def fromHexChar (c : Byte) : Option Nat :=
  if 48 ≤ c.val ∧ c.val ≤ 57 then some (c.val - 48)
  else if 97 ≤ c.val ∧ c.val ≤ 102 then some (c.val - 87)
  else if 65 ≤ c.val ∧ c.val ≤ 70 then some (c.val - 55)
  else none

/-- Whether a byte is a hexadecimal digit. -/
def isHexDigit (c : Byte) : Bool := (fromHexChar c).isSome

/-- The errors of `hex.Decode`. -/
inductive DecodeError where
  | invalidByte (b : Byte)
  | errLength
  deriving DecidableEq, Repr

/-- `hex.Encode(dst, src)` for a one-byte `src`: the two digits written to `dst[0:2]`. -/
def Encode (v : Byte) : List Byte := [hextable (v.val / 16), hextable (v.val % 16)]

/-- `hex.Decode(dst, src)`: the bytes stored into `dst[:n]` and the error.  The pair loop
stops at the first byte that is no digit; a trailing single byte is reported as an invalid
byte if it is no digit and as `ErrLength` otherwise. -/
def Decode : List Byte → List Byte × Option DecodeError
  | [] => ([], none)
  | [p] =>
    match fromHexChar p with
    | none => ([], some (.invalidByte p))
    | some _ => ([], some .errLength)
  | p :: q :: rest =>
    match fromHexChar p, fromHexChar q with
    | none, _ => ([], some (.invalidByte p))
    | some _, none => ([], some (.invalidByte q))
    | some a, some b =>
      let r := Decode rest
      (Fin.ofNat (a * 16 + b) :: r.1, r.2)

/-- `hex.DecodeString(s)`: decodes in place and returns `src[:n]` with the error. -/
def DecodeString (s : List Byte) : List Byte × Option DecodeError := Decode s

end hex

/-! ## Files -/

/-- What one call of `os.File.Write` does: it appends everything and returns no error, or
it appends only the first `written` bytes of the payload and returns an error. -/
inductive WriteOutcome where
  | ok
  | fail (written : Nat)
  deriving DecidableEq, Repr

/-- The file content after a write call with the given outcome.  Segment files are
append-only: the payload goes to the end of the file. -/
def fileAppend (file payload : List Byte) : WriteOutcome → List Byte
  | .ok => file ++ payload
  | .fail n => file ++ payload.take (min n (payload.length - 1))

/-- The error a store reports for a failed flush (`"flush failed: " + err.Error()`). -/
inductive StoreError where
  | flushFailed
  | rotateFailed
  deriving DecidableEq, Repr

/-- Where a `Log` or `Write` call stands when it either returns without having called the
rotation (`finished`, with the store and the error it returns) or reaches the call of
`rotateLogFile` / `rotateEventsFile` (`rotating`, with the store the rotation is called
on). -/
inductive Stage (σ : Type) where
  | finished (s : σ) (err : Option StoreError)
  | rotating (s : σ)
  deriving DecidableEq, Repr

/-- The errors of `SetAutoFlushTime`: `ErrAutoFlushTimeAlreadySet` and
`ErrAutoFlushTimeTooLow`. -/
inductive ConfigError where
  | ErrAutoFlushTimeAlreadySet
  | ErrAutoFlushTimeTooLow
  deriving DecidableEq, Repr

/-! ## binarylog -/

namespace binarylog

/-- Modelled from the spec: the constant `Space` is declared elsewhere in the package; the
spec names it the space byte that `Decode` discards. -/
def Space : Byte := 32

/-- Modelled from the spec: the constant `LineBreak` is declared elsewhere in the package;
the spec names it the linebreak byte that `Decode` discards. -/
def LineBreak : Byte := 10

/-- Modelled from the spec: the constant `EmptyByte` is declared elsewhere in the package;
the spec names it the empty byte that `Decode` discards, the zero byte of a fresh buffer. -/
def EmptyByte : Byte := 0

/-- Modelled from the spec: the constant `lineLength` is declared elsewhere in the package;
it is the on-disk length of a full row: 32 hex characters, 7 spaces and one newline. -/
def lineLength : Nat := 40

/-- The fields of `binaryLogger` that the write path and the resume computation use. -/
structure binaryLogger where
  buf : List Byte
  lastLineBytesCount : Nat
  insertsCount : Nat
  autoFlushCount : Int
  autoFlushTime : Int
  logFileSize : Nat
  logFileMaxSize : Int
  logFile : List Byte
  writeCalls : Nat
  deriving DecidableEq, Repr

/-- One iteration of the loop of `insertData`: the logger after it and the value of `l`. -/
def insertByte (b : binaryLogger) (v : Byte) : binaryLogger × Nat :=
  let n := b.lastLineBytesCount + 1
  if n ≥ 16 then
    ({ b with buf := b.buf ++ (hex.Encode v ++ [10]), lastLineBytesCount := 0 }, 3)
  else if n % 2 = 0 then
    ({ b with buf := b.buf ++ (hex.Encode v ++ [32]), lastLineBytesCount := n }, 3)
  else
    ({ b with buf := b.buf ++ hex.Encode v, lastLineBytesCount := n }, 2)

/-- `insertData(data)`: the logger afterwards and the returned `dataLen`. -/
def insertData : List Byte → binaryLogger → binaryLogger × Nat
  | [], b => (b, 0)
  | v :: rest, b =>
    let r := insertByte b v
    let r2 := insertData rest r.1
    (r2.1, r.2 + r2.2)

/-- `Decode(data)`: the returned slice `dist` and the error.  `dist` has
`hex.DecodedLen(len(pure))` entries, of which `hex.Decode` fills the first ones. -/
def Decode (data : List Byte) : List Byte × Option hex.DecodeError :=
  let kept := data.filter (fun v => v ≠ Space ∧ v ≠ LineBreak ∧ v ≠ EmptyByte)
  let r := hex.Decode kept
  (r.1 ++ List.replicate (kept.length / 2 - r.1.length) 0, r.2)

/-- `logFile.ReadAt(buffer, off)`: the buffer afterwards.  The bytes of the file from `off`
on overwrite the start of the buffer; what lies past the end of the file is left as it was. -/
def readAtInto (file buffer : List Byte) (off : Nat) : List Byte :=
  let got := (file.drop off).take buffer.length
  got ++ buffer.drop got.length

/-- Modelled from the spec: `calculateLogFileSize` is declared elsewhere in the package; the
spec makes it the size of the active segment, 0 for a missing one. -/
def calculateLogFileSize (logFile : List Byte) : Nat := logFile.length

/-- Modelled from the spec: the constant `MB` is declared elsewhere in the package; the
default segment size `100 * MB` is 100 MiB. -/
def MB : Int := 1048576

/-- The resume computation at the end of `New`: the value stored in `lastLineBytesCount` for
an active segment with the given content and size. -/
def resumeCount (logFile : List Byte) (logFileSize : Nat) : Nat :=
  let lastLine := logFileSize / lineLength
  let lineBuffer := readAtInto logFile (List.replicate lineLength 0) (lastLine * lineLength)
  let rawLine := lineBuffer.filter (fun v => v ≠ 32 ∧ v ≠ 10)
  (hex.DecodeString rawLine).1.length

/-- `New(basePath, errWriter)` where the registry and the active segment open without error:
the logger for an active segment with content `logFile`. -/
def New (logFile : List Byte) : binaryLogger :=
  { buf := []
    lastLineBytesCount := resumeCount logFile (calculateLogFileSize logFile)
    insertsCount := 0
    autoFlushCount := 0
    autoFlushTime := 0
    logFileSize := calculateLogFileSize logFile
    logFileMaxSize := 100 * MB
    logFile := logFile
    writeCalls := 0 }

/-- `flush()`: the logger afterwards, the returned count and the error.  `env` gives the
outcome of the k-th call of `logFile.Write`. -/
def flush (env : Nat → WriteOutcome) (b : binaryLogger) :
    binaryLogger × Nat × Option StoreError :=
  if b.insertsCount > 0 then
    match env b.writeCalls with
    | .ok =>
      ({ b with logFile := fileAppend b.logFile b.buf .ok, writeCalls := b.writeCalls + 1,
                buf := [], insertsCount := 0 }, b.insertsCount, none)
    | .fail n =>
      ({ b with logFile := fileAppend b.logFile b.buf (.fail n),
                writeCalls := b.writeCalls + 1 }, 0, some .flushFailed)
  else (b, 0, none)

/-- `Flush()`: `flush` under the lock. -/
def Flush (env : Nat → WriteOutcome) (b : binaryLogger) :
    binaryLogger × Nat × Option StoreError := flush env b

/-- `Log(data)`: the logger afterwards, `writtenLen` and `err`.  `rotateLogFile` and the
variable `RowDelimiter` are declared elsewhere in the package and are parameters. -/
def Log (env : Nat → WriteOutcome)
    (rotateLogFile : binaryLogger → binaryLogger × Option StoreError)
    (RowDelimiter : List Byte) (data : List Byte) (b : binaryLogger) :
    binaryLogger × Nat × Option StoreError :=
  let r1 := insertData data b
  let r2 := insertData RowDelimiter r1.1
  let writtenLen := r1.2 + r2.2
  let b1 := { r2.1 with logFileSize := r2.1.logFileSize + writtenLen,
                        insertsCount := r2.1.insertsCount + 1 }
  let f1 := if b1.autoFlushCount > 0 ∧ (b1.insertsCount : Int) ≥ b1.autoFlushCount
            then flush env b1 else (b1, 0, none)
  match f1.2.2 with
  | some e => (f1.1, writtenLen, some e)
  | none =>
    if (f1.1.logFileSize : Int) ≥ f1.1.logFileMaxSize then
      let f2 := flush env f1.1
      match f2.2.2 with
      | some e => (f2.1, writtenLen, some e)
      | none =>
        let r := rotateLogFile f2.1
        (r.1, writtenLen, r.2)
    else (f1.1, writtenLen, none)

/-- `Log(data)` up to the point where it returns or calls `rotateLogFile`: the stage reached
and `writtenLen`.  It is the body of `Log` with the call of `rotateLogFile` left open. -/
def logStage (env : Nat → WriteOutcome) (RowDelimiter : List Byte) (data : List Byte)
    (b : binaryLogger) : Stage binaryLogger × Nat :=
  let r1 := insertData data b
  let r2 := insertData RowDelimiter r1.1
  let writtenLen := r1.2 + r2.2
  let b1 := { r2.1 with logFileSize := r2.1.logFileSize + writtenLen,
                        insertsCount := r2.1.insertsCount + 1 }
  let f1 := if b1.autoFlushCount > 0 ∧ (b1.insertsCount : Int) ≥ b1.autoFlushCount
            then flush env b1 else (b1, 0, none)
  match f1.2.2 with
  | some e => (.finished f1.1 (some e), writtenLen)
  | none =>
    if (f1.1.logFileSize : Int) ≥ f1.1.logFileMaxSize then
      let f2 := flush env f1.1
      match f2.2.2 with
      | some e => (.finished f2.1 (some e), writtenLen)
      | none => (.rotating f2.1, writtenLen)
    else (.finished f1.1 none, writtenLen)

/-- `SetAutoFlushCount(count)`. -/
def SetAutoFlushCount (count : Int) (b : binaryLogger) : binaryLogger :=
  { b with autoFlushCount := count }

/-- `GetAutoFlushCount()`. -/
def GetAutoFlushCount (b : binaryLogger) : Int := b.autoFlushCount

/-- `SetAutoFlushTime(period)`: the logger afterwards and the error.  The goroutine that
calls `Flush` on every tick is not part of the state. -/
def SetAutoFlushTime (period : Int) (b : binaryLogger) : binaryLogger × Option ConfigError :=
  if b.autoFlushTime ≠ 0 then (b, some .ErrAutoFlushTimeAlreadySet)
  else if period ≤ 0 then (b, some .ErrAutoFlushTimeTooLow)
  else ({ b with autoFlushTime := period }, none)

/-- The row state after one more byte. -/
def nextCount (c : Nat) : Nat := if c + 1 ≥ 16 then 0 else c + 1

/-- The separator written after a byte that arrives in row state `c`. -/
def sepAfter (c : Nat) : List Byte :=
  if c + 1 ≥ 16 then [10] else if (c + 1) % 2 = 0 then [32] else []

/-- The text `insertData` appends, as a function of the row state and the data. -/
def encText : Nat → List Byte → List Byte
  | _, [] => []
  | c, v :: rest => hex.Encode v ++ sepAfter c ++ encText (nextCount c) rest

/-- The row state `insertData` ends in. -/
def encCount : Nat → List Byte → Nat
  | c, [] => c
  | c, _ :: rest => encCount (nextCount c) rest

/-- The bytes `Decode` keeps: everything but `Space`, `LineBreak` and `EmptyByte`. -/
def kept (data : List Byte) : List Byte :=
  data.filter (fun v => v ≠ Space ∧ v ≠ LineBreak ∧ v ≠ EmptyByte)

/-- The value of a hexadecimal digit, 0 for any other byte. -/
def digitValue (c : Byte) : Nat := (hex.fromHexChar c).getD 0

/-- The bytes the resume computation keeps: everything but space and newline. -/
def rawOf (l : List Byte) : List Byte := l.filter (fun v => v ≠ 32 ∧ v ≠ 10)

/-- A file that ends inside a row holding `c` bytes: a whole number of 40-byte rows,
then `2 c + c / 2` bytes whose digits are `2 c` hexadecimal digits. -/
def RowInv (F : List Byte) (c : Nat) : Prop :=
  c < 16 ∧ ∃ Q P, F = Q ++ P ∧ Q.length % 40 = 0 ∧ P.length = 2 * c + c / 2 ∧
    (rawOf P).length = 2 * c ∧ ∀ x ∈ rawOf P, hex.isHexDigit x = true

/-- A group of the row layout: 4 hexadecimal digits, the text of 2 bytes. -/
def IsGroup (g : List Byte) : Prop := g.length = 4 ∧ ∀ x ∈ g, hex.isHexDigit x = true

/-- A full row without its newline: exactly 8 groups, separated by single spaces. -/
def IsFullRow (r : List Byte) : Prop :=
  ∃ gs : List (List Byte), gs.length = 8 ∧ (∀ g ∈ gs, IsGroup g) ∧ r = [32].intercalate gs

/-- A last row holding `k` bytes in the same grouping: `k / 2` groups, each followed by a
single space, then the 2 digits of the unpaired byte when `k` is odd. -/
def IsLastRow (k : Nat) (r : List Byte) : Prop :=
  ∃ (gs : List (List Byte)) (rest : List Byte), gs.length = k / 2 ∧ (∀ g ∈ gs, IsGroup g) ∧
    rest.length = 2 * (k % 2) ∧ (∀ x ∈ rest, hex.isHexDigit x = true) ∧
    r = (gs.map (fun g => g ++ [32])).flatten ++ rest

/-- The text written for `t` bytes from row state 0: `t / 16` full rows, each followed by
one newline, then a last row holding `t % 16` bytes. -/
def RowsInv (F : List Byte) (t : Nat) : Prop :=
  ∃ (rows : List (List Byte)) (last : List Byte),
    F = (rows.map (fun r => r ++ [10])).flatten ++ last ∧ rows.length = t / 16 ∧
    (∀ r ∈ rows, IsFullRow r) ∧ IsLastRow (t % 16) last

/-- Whether a text is one group of the row layout: exactly 4 hexadecimal digits. -/
def isGroup (g : List Byte) : Bool := g.length == 4 && g.all hex.isHexDigit

/-- Whether a row, taken without its newline, is exactly 8 groups of 4 hexadecimal digits
separated by single spaces: splitting it at spaces gives 8 pieces, each a group. -/
def isFullRow (r : List Byte) : Bool :=
  (r.splitOn 32).length == 8 && (r.splitOn 32).all isGroup

/-- Whether a row holds `k` bytes in the grouping of a full row: splitting it at spaces
gives `k / 2` groups and then one piece that holds the 2 digits of the unpaired byte when
`k` is odd and is empty when `k` is even. -/
def isLastRow (k : Nat) (r : List Byte) : Bool :=
  (r.splitOn 32).length == k / 2 + 1 &&
  ((r.splitOn 32).take (k / 2)).all isGroup &&
  ((r.splitOn 32).drop (k / 2)).all
    (fun t => t.length == 2 * (k % 2) && t.all hex.isHexDigit)

end binarylog

/-! ## eventstorage -/

namespace eventstorage

/-- Modelled from the spec: the constant `LineBreak` is declared elsewhere in the package;
the spec makes the record delimiter of the raw encoder a single linebreak byte. -/
def LineBreak : Byte := 10

/-- Modelled from the spec: the constant `MB` is declared elsewhere in the package; the
default segment size `100 * MB` is 100 MiB. -/
def MB : Int := 1048576

/-- The write side of `EventStorage` (the fields of `s.write`) and the segment files:
`file` is the content of the active segment, `sealed` the contents of the segments before
it in ascending number. -/
structure EventStorage where
  buf : List Byte
  fileSize : Nat
  insertsCount : Nat
  autoFlushCount : Int
  autoFlushTime : Int
  fileMaxSize : Int
  file : List Byte
  writeCalls : Nat
  sealed : List (List Byte)
  deriving DecidableEq, Repr

/-- Modelled from the spec: `calculateWriteFileSize` is declared elsewhere in the package;
the spec makes it the size of the active segment, 0 for a missing one. -/
def calculateWriteFileSize (file : List Byte) : Nat := file.length

/-- `New(basePath)` where the registry and the active segment open without error. -/
def New (sealed : List (List Byte)) (file : List Byte) : EventStorage :=
  { buf := []
    fileSize := calculateWriteFileSize file
    insertsCount := 0
    autoFlushCount := 0
    autoFlushTime := 0
    fileMaxSize := 100 * MB
    file := file
    writeCalls := 0
    sealed := sealed }

/-- `flush()`: the store afterwards, the returned count and the error.  `env` gives the
outcome of the k-th call of `s.write.file.Write`. -/
def flush (env : Nat → WriteOutcome) (s : EventStorage) :
    EventStorage × Nat × Option StoreError :=
  if s.insertsCount > 0 then
    match env s.writeCalls with
    | .ok =>
      ({ s with file := fileAppend s.file s.buf .ok, writeCalls := s.writeCalls + 1,
                buf := [], insertsCount := 0 }, s.insertsCount, none)
    | .fail n =>
      ({ s with file := fileAppend s.file s.buf (.fail n),
                writeCalls := s.writeCalls + 1 }, 0, some .flushFailed)
  else (s, 0, none)

/-- `Flush()`: `flush` under the lock. -/
def Flush (env : Nat → WriteOutcome) (s : EventStorage) :
    EventStorage × Nat × Option StoreError := flush env s

/-- `SetAutoFlushCount(count)`. -/
def SetAutoFlushCount (count : Int) (s : EventStorage) : EventStorage :=
  { s with autoFlushCount := count }

/-- `GetAutoFlushCount()`. -/
def GetAutoFlushCount (s : EventStorage) : Int := s.autoFlushCount

/-- `SetAutoFlushTime(period)`: the store afterwards and the error.  The goroutine that
calls `Flush` on every tick is not part of the state. -/
def SetAutoFlushTime (period : Int) (s : EventStorage) : EventStorage × Option ConfigError :=
  if period ≤ 0 then (s, some .ErrAutoFlushTimeTooLow)
  else if s.autoFlushTime ≠ 0 then (s, some .ErrAutoFlushTimeAlreadySet)
  else ({ s with autoFlushTime := period }, none)

/-- `Write(data)`: the store afterwards, `writtenLen` and `err`.  `rotateEventsFile` is
declared elsewhere in the package and is a parameter. -/
def Write (env : Nat → WriteOutcome)
    (rotateEventsFile : EventStorage → EventStorage × Option StoreError)
    (data : List Byte) (s : EventStorage) : EventStorage × Nat × Option StoreError :=
  let writtenLen := data.length + 1
  let s1 := { s with buf := s.buf ++ data ++ [LineBreak],
                     fileSize := s.fileSize + writtenLen,
                     insertsCount := s.insertsCount + 1 }
  let f1 := if s1.autoFlushCount > 0 ∧ (s1.insertsCount : Int) ≥ s1.autoFlushCount
            then flush env s1 else (s1, 0, none)
  match f1.2.2 with
  | some e => (f1.1, writtenLen, some e)
  | none =>
    if (f1.1.fileSize : Int) ≥ f1.1.fileMaxSize then
      let f2 := flush env f1.1
      match f2.2.2 with
      | some e => (f2.1, writtenLen, some e)
      | none =>
        let r := rotateEventsFile f2.1
        (r.1, writtenLen, r.2)
    else (f1.1, writtenLen, none)

/-- `Write(data)` up to the point where it returns or calls `rotateEventsFile`: the stage
reached and `writtenLen`.  It is the body of `Write` with the call of `rotateEventsFile`
left open. -/
def writeStage (env : Nat → WriteOutcome) (data : List Byte) (s : EventStorage) :
    Stage EventStorage × Nat :=
  let writtenLen := data.length + 1
  let s1 := { s with buf := s.buf ++ data ++ [LineBreak],
                     fileSize := s.fileSize + writtenLen,
                     insertsCount := s.insertsCount + 1 }
  let f1 := if s1.autoFlushCount > 0 ∧ (s1.insertsCount : Int) ≥ s1.autoFlushCount
            then flush env s1 else (s1, 0, none)
  match f1.2.2 with
  | some e => (.finished f1.1 (some e), writtenLen)
  | none =>
    if (f1.1.fileSize : Int) ≥ f1.1.fileMaxSize then
      let f2 := flush env f1.1
      match f2.2.2 with
      | some e => (.finished f2.1 (some e), writtenLen)
      | none => (.rotating f2.1, writtenLen)
    else (.finished f1.1 none, writtenLen)

/-- The errors `file.Read` can return: `io.EOF`, an error whose text contains
`"file already closed"`, and any other error. -/
inductive ReadError where
  | eof
  | closed
  | other
  deriving DecidableEq, Repr

/-- What `file.Read(s.read.readBuf)` returns: the bytes `readBuf[:readCount]` and `err`. -/
structure ReadResult where
  bytes : List Byte
  err : Option ReadError
  deriving DecidableEq, Repr

/-- A file of `s.read.readableFiles`: what `file.Seek(off, 0)` followed by
`file.Read(s.read.readBuf)` returns, for each `off`. -/
abbrev ReadableFile := Nat → ReadResult

/-- An open regular file with the given content, read through a buffer of `readBufLimit`
bytes: a read inside the file returns the bytes up to the buffer size and no error, a read
at or past the end returns `io.EOF`, a read into an empty buffer returns nothing. -/
def regularFile (readBufLimit : Nat) (content : List Byte) : ReadableFile := fun off =>
  if readBufLimit = 0 then ⟨[], none⟩
  else if off < content.length then ⟨(content.drop off).take readBufLimit, none⟩
  else ⟨[], some .eof⟩

/-- The scan state of `ReadTo`: the counters and the record buffer of `s.read`, and the
output slice `events`. -/
structure read where
  eventsCount : Nat
  eventsSaved : Nat
  buf : List Byte
  events : List (List Byte)
  deriving DecidableEq, Repr

/-- How a piece of the scan ends: it falls through to what follows, it executes `return`,
or the assignment `events[eventsSaved]` is out of range and the call panics. -/
inductive Flow where
  | next (r : read)
  | returned (r : read)
  | panicked
  deriving DecidableEq, Repr

/-- The body of the loop over `readBuf[i]` in `ReadTo`, for the byte `v`. -/
def scanByte (count offset : Int) (v : Byte) (r : read) : Flow :=
  let r1 := if v = LineBreak then { r with eventsCount := r.eventsCount + 1 }
            else if (r.eventsCount : Int) ≥ offset then { r with buf := r.buf ++ [v] }
            else r
  if (r1.eventsCount : Int) ≤ offset then .next r1
  else if v = LineBreak then
    if r1.eventsSaved < r1.events.length then
      let r2 := { r1 with events := r1.events.set r1.eventsSaved r1.buf,
                          eventsSaved := r1.eventsSaved + 1, buf := [] }
      if (r2.eventsSaved : Int) = count then .returned r2 else .next r2
    else .panicked
  else .next r1

/-- The loop `for i := 0; i < readCount; i++` over the bytes read. -/
def scanChunk (count offset : Int) : List Byte → read → Flow
  | [], r => .next r
  | v :: rest, r =>
    match scanByte count offset v r with
    | .next r1 => scanChunk count offset rest r1
    | .returned r1 => .returned r1
    | .panicked => .panicked

/-- The inner `for` loop of `ReadTo` over one file, from `seekOffset` on, with at most `fuel`
calls of `file.Read`; `none` when they do not suffice. -/
def readFile (readBufLimit : Nat) (count offset : Int) (file : ReadableFile) :
    Nat → Nat → read → Option Flow
  | 0, _, _ => none
  | fuel + 1, seekOffset, r =>
    let res := file seekOffset
    if res.err = some .eof ∨ res.err = some .closed then some (.next r)
    else
      match scanChunk count offset res.bytes r with
      | .next r1 => readFile readBufLimit count offset file fuel (seekOffset + readBufLimit) r1
      | .returned r1 => some (.returned r1)
      | .panicked => some .panicked

/-- The outer loop of `ReadTo` over the files `1 .. filesCount()`, each scanned with at most
`fuel` calls of `file.Read`. -/
def readFiles (readBufLimit : Nat) (count offset : Int) (fuel : Nat) :
    List ReadableFile → read → Option Flow
  | [], r => some (.next r)
  | file :: rest, r =>
    match readFile readBufLimit count offset file fuel 0 r with
    | none => none
    | some (.next r1) => readFiles readBufLimit count offset fuel rest r1
    | some (.returned r1) => some (.returned r1)
    | some .panicked => some .panicked

/-- What a call that can panic yields: its value, or `panic` when the Go runtime stops the
call (an index out of range, a slice that cannot be made). -/
inductive Result (α : Type) where
  | ok (v : α)
  | panic
  deriving DecidableEq, Repr

/-- `ReadTo(count, offset, events)` over the files of `s.read.readableFiles` in ascending
number: the slice `events` afterwards, `panic` for an index out of range, and `none` when
`fuel` reads per file do not suffice.  The constant `readBufLimit` is declared elsewhere in
the package and is a parameter. -/
def ReadTo (readBufLimit : Nat) (files : List ReadableFile) (count offset : Int)
    (events : List (List Byte)) (fuel : Nat) : Option (Result (List (List Byte))) :=
  match readFiles readBufLimit count offset fuel files
      { eventsCount := 0, eventsSaved := 0, buf := [], events := events } with
  | none => none
  | some (.next r) => some (.ok r.events)
  | some (.returned r) => some (.ok r.events)
  | some .panicked => some .panic

/-- The largest length the Go runtime accepts for a `[]string` on a 64-bit platform:
`makeslice` panics with "len out of range" as soon as `len * 16` bytes, 16 being the size
of a string header, exceed `maxAlloc = 2^48`; the bound is `2^44`. -/
def maxSliceLen : Nat := 17592186044416

/-- The largest `count` for which `make([]string, count)` returns, in a process that has
memory left for `memLimit` string headers: never more than `maxSliceLen`. -/
def sliceLimit (memLimit : Nat) : Nat := min memLimit maxSliceLen

/-- `make([]string, count)`: the slice of `count` empty strings; the runtime stops the call
for a negative `count` and for a `count` above `sliceLimit memLimit`. -/
def makeStrings (memLimit : Nat) (count : Int) : Result (List (List Byte)) :=
  if count < 0 ∨ count > (sliceLimit memLimit : Nat) then .panic
  else .ok (List.replicate count.toNat [])

/-- `Read(count, offset)`: `events := make([]string, count)`, then `ReadTo(count, offset,
events)`, then `events` is returned.  `memLimit` is the number of string headers the process
can still allocate. -/
def Read (memLimit readBufLimit : Nat) (files : List ReadableFile) (count offset : Int)
    (fuel : Nat) : Option (Result (List (List Byte))) :=
  match makeStrings memLimit count with
  | .panic => some .panic
  | .ok events => ReadTo readBufLimit files count offset events fuel

/-- Modelled from the spec: `initEventsFile` and `filesCount` are declared elsewhere in the
package; the spec has the read path enumerate all segments in ascending registry order, the
active one last, each opened for reading once. -/
def EventStorage.readableFiles (readBufLimit : Nat) (s : EventStorage) : List ReadableFile :=
  (s.sealed ++ [s.file]).map (regularFile readBufLimit)

/-- `Read(count, offset)` on a store whose segment files are all open and readable. -/
def EventStorage.Read (memLimit readBufLimit : Nat) (s : EventStorage) (count offset : Int)
    (fuel : Nat) : Option (Result (List (List Byte))) :=
  eventstorage.Read memLimit readBufLimit (s.readableFiles readBufLimit) count offset fuel

/-- A sequence of `Write` calls, one per record, in order. -/
def writeAll (env : Nat → WriteOutcome)
    (rotateEventsFile : EventStorage → EventStorage × Option StoreError) :
    List (List Byte) → EventStorage → EventStorage
  | [], s => s
  | r :: rest, s => writeAll env rotateEventsFile rest (Write env rotateEventsFile r s).1

/-- Sequencing: what follows a piece of the scan runs only if the piece falls through. -/
def Flow.andThen (f : Flow) (k : read → Flow) : Flow :=
  match f with
  | .next r => k r
  | .returned r => .returned r
  | .panicked => .panicked

/-- The segment text of a list of records: each record followed by `LineBreak`. -/
def recordsBytes (rs : List (List Byte)) : List Byte :=
  (rs.map (fun r => r ++ [LineBreak])).flatten

/-- The complete records of a text: the pieces that end at a `LineBreak` byte, in order;
the unterminated piece after the last `LineBreak` is left out. -/
def completeRecords (text : List Byte) : List (List Byte) :=
  (text.splitOn LineBreak).dropLast

/-- The reference read: split the text at `LineBreak` bytes, drop the first `offset`
complete records, take the next `count`, and put them in the first slots of the output. -/
def referenceRead (text : List Byte) (count offset : Nat) (events : List (List Byte)) :
    List (List Byte) :=
  ((completeRecords text).drop offset).take count
    ++ events.drop (((completeRecords text).drop offset).take count).length

/-- What `ReadTo` makes of the way the scan ends. -/
def Flow.result : Flow → Result (List (List Byte))
  | .next r => .ok r.events
  | .returned r => .ok r.events
  | .panicked => .panic

/-- A file whose every read fails with an error that is neither `io.EOF` nor "file already
closed" and returns no bytes, such as the read of a nil `*os.File` ("invalid argument"). -/
def failingFile : ReadableFile := fun _ => ⟨[], some .other⟩

/-- A file that is closed after `k` chunk reads: the first `k` reads return the chunks of
`content`, every later read fails with "file already closed". -/
def closedAfter (readBufLimit k : Nat) (content : List Byte) : ReadableFile := fun off =>
  if off < k * readBufLimit then regularFile readBufLimit content off
  else ⟨[], some .closed⟩

end eventstorage

/-! ## Proofs: the hex encoder -/

namespace hex

theorem fromHexChar_hextable (n : Nat) (h : n < 16) : fromHexChar (hextable n) = some n := by
  interval_cases n <;> rfl

theorem hextable_ne (n : Nat) (h : n < 16) :
    hextable n ≠ 32 ∧ hextable n ≠ 10 ∧ hextable n ≠ 0 := by
  interval_cases n <;> decide

theorem ofNat_nibbles (v : Byte) : (Fin.ofNat (v.val / 16 * 16 + v.val % 16) : Fin 256) = v := by
  apply Fin.ext
  have h := v.isLt
  simp only [Fin.ofNat, Fin.val_mk]
  omega

theorem Decode_Encode_append (v : Byte) (rest : List Byte) :
    Decode (Encode v ++ rest) = (v :: (Decode rest).1, (Decode rest).2) := by
  have h1 : v.val / 16 < 16 := by have := v.isLt; omega
  have h2 : v.val % 16 < 16 := Nat.mod_lt _ (by decide)
  simp only [Encode, List.cons_append, List.nil_append, Decode, fromHexChar_hextable _ h1,
    fromHexChar_hextable _ h2, ofNat_nibbles]
  rfl

end hex

namespace binarylog

theorem insertByte_eq (b : binaryLogger) (v : Byte) :
    insertByte b v =
      ({ b with buf := b.buf ++ (hex.Encode v ++ sepAfter b.lastLineBytesCount),
                lastLineBytesCount := nextCount b.lastLineBytesCount },
        2 + (sepAfter b.lastLineBytesCount).length) := by
  unfold insertByte sepAfter nextCount
  by_cases h1 : b.lastLineBytesCount + 1 ≥ 16
  · simp [h1]
  · by_cases h2 : (b.lastLineBytesCount + 1) % 2 = 0
    · simp [h1, h2]
    · simp [h1, h2]

theorem insertData_eq (d : List Byte) (b : binaryLogger) :
    insertData d b =
      ({ b with buf := b.buf ++ encText b.lastLineBytesCount d,
                lastLineBytesCount := encCount b.lastLineBytesCount d },
        (encText b.lastLineBytesCount d).length) := by
  induction d generalizing b with
  | nil => simp [insertData, encText, encCount]
  | cons v rest ih =>
    simp only [insertData, insertByte_eq, ih, encText, encCount, List.append_assoc,
      List.length_append, hex.Encode, List.length_cons, List.length_nil]
    congr 1
    omega

theorem kept_append (a b : List Byte) : kept (a ++ b) = kept a ++ kept b := by
  simp [kept]

theorem kept_Encode (v : Byte) : kept (hex.Encode v) = hex.Encode v := by
  have h1 : v.val / 16 < 16 := by have := v.isLt; omega
  have h2 : v.val % 16 < 16 := Nat.mod_lt _ (by decide)
  have a := hex.hextable_ne _ h1
  have c := hex.hextable_ne _ h2
  simp [kept, hex.Encode, Space, LineBreak, EmptyByte, a.1, a.2.1, a.2.2, c.1, c.2.1, c.2.2]

theorem kept_sepAfter (c : Nat) : kept (sepAfter c) = [] := by
  unfold sepAfter
  split
  · decide
  · split <;> decide

theorem kept_encText (c : Nat) (d : List Byte) :
    kept (encText c d) = d.flatMap hex.Encode := by
  induction d generalizing c with
  | nil => rfl
  | cons v rest ih =>
    simp [encText, kept_append, kept_Encode, kept_sepAfter, ih]

theorem Decode_flatMap_Encode (d rest : List Byte) :
    hex.Decode (d.flatMap hex.Encode ++ rest) = (d ++ (hex.Decode rest).1, (hex.Decode rest).2) := by
  induction d with
  | nil => simp
  | cons v tl ih =>
    simp [List.flatMap_cons, List.append_assoc, hex.Decode_Encode_append, ih]

theorem length_flatMap_Encode (d : List Byte) : (d.flatMap hex.Encode).length = 2 * d.length := by
  induction d with
  | nil => rfl
  | cons v tl ih => simp [List.flatMap_cons, hex.Encode, ih]; omega

theorem Decode_encText (c : Nat) (d : List Byte) : Decode (encText c d) = (d, none) := by
  have h := Decode_flatMap_Encode d []
  simp only [List.append_nil, hex.Decode] at h
  have hk : (List.filter (fun v => decide (v ≠ Space ∧ v ≠ LineBreak ∧ v ≠ EmptyByte))
      (encText c d)) = d.flatMap hex.Encode := kept_encText c d
  simp only [Decode, hk, h, length_flatMap_Encode]
  simp

/-- C1. Hex round trip: for every byte sequence `d` and every logger state (so every row
state, in particular 0..15), `insertData d` leaves the old buffer as an initial part of the
new one, and `Decode` applied to the text it appended returns exactly `d` and no error. -/
theorem C1_decode_insertData (d : List Byte) (b : binaryLogger) :
    (insertData d b).1.buf = b.buf ++ ((insertData d b).1.buf).drop b.buf.length ∧
    Decode (((insertData d b).1.buf).drop b.buf.length) = (d, none) := by
  simp [insertData_eq, Decode_encText]

end binarylog

/-! ## Proofs: when `Decode` fails -/

namespace hex

theorem fromHexChar_lt (c : Byte) (n : Nat) (h : fromHexChar c = some n) : n < 16 := by
  unfold fromHexChar at h
  split_ifs at h <;> simp at h <;> omega

theorem Decode_err_iff (l : List Byte) :
    (Decode l).2 ≠ none ↔ (l.length % 2 = 1 ∨ ∃ c ∈ l, isHexDigit c = false) := by
  induction l using Decode.induct with
  | case1 => simp [Decode]
  | case2 p h => simp [Decode, h]
  | case3 p v h => simp [Decode, h]
  | case4 p q rest h => simp [Decode, h, isHexDigit]
  | case5 p q rest v hq hp => simp [Decode, hp, hq, isHexDigit]
  | case6 p q rest a b hq hp ih =>
    simp only [Decode, hp, hq, ih, List.length_cons, List.mem_cons, exists_eq_or_imp, isHexDigit,
      Option.isSome_some]
    have e : (rest.length + 1 + 1) % 2 = rest.length % 2 := by omega
    rw [e]
    constructor
    · rintro (h | h)
      · exact Or.inl h
      · exact Or.inr (Or.inr (Or.inr h))
    · rintro (h | h | h | h)
      · exact Or.inl h
      · simp [hp] at h
      · simp [hq] at h
      · exact Or.inr h

theorem Decode_ok_spec (l : List Byte) (h : (Decode l).2 = none) :
    (Decode l).1.length = l.length / 2 ∧
    ∀ i, i < l.length / 2 →
      ((Decode l).1.getD i 0).val =
        16 * binarylog.digitValue (l.getD (2 * i) 0) +
          binarylog.digitValue (l.getD (2 * i + 1) 0) := by
  induction l using Decode.induct with
  | case1 => simp [Decode]
  | case2 p hp => simp [Decode, hp] at h
  | case3 p v hp => simp [Decode, hp] at h
  | case4 p q rest hp => simp [Decode, hp] at h
  | case5 p q rest v hq hp => simp [Decode, hp, hq] at h
  | case6 p q rest a b hq hp ih =>
    simp only [Decode, hp, hq] at h ⊢
    have ih' := ih h
    refine ⟨by simp [ih'.1]; omega, ?_⟩
    intro i hi
    cases i with
    | zero =>
      have ha := fromHexChar_lt _ _ hp
      have hb := fromHexChar_lt _ _ hq
      simp [binarylog.digitValue, hp, hq, Fin.ofNat]
      omega
    | succ j =>
      have hj : j < rest.length / 2 := by simp at hi; omega
      have := ih'.2 j hj
      have e1 : 2 * (j + 1) = (2 * j) + 1 + 1 := by ring
      rw [e1]
      simpa using this

end hex

namespace binarylog

/-- C7. `Decode` fails exactly on malformed hex: with `kept x` the bytes of `x` that are
neither `Space` nor `LineBreak` nor `EmptyByte`, `Decode x` returns an error if and only if
`kept x` has odd length or holds a byte that is no hexadecimal digit; and when it returns no
error, the result has one byte per pair of kept digits, byte `i` having the value
`16 * digit (2 i) + digit (2 i + 1)`. -/
theorem C7_Decode_error_iff (x : List Byte) :
    ((Decode x).2 ≠ none ↔
      ((kept x).length % 2 = 1 ∨ ∃ c ∈ kept x, hex.isHexDigit c = false)) ∧
    ((Decode x).2 = none →
      (Decode x).1.length = (kept x).length / 2 ∧
      ∀ i, i < (kept x).length / 2 →
        ((Decode x).1.getD i 0).val =
          16 * digitValue ((kept x).getD (2 * i) 0) +
            digitValue ((kept x).getD (2 * i + 1) 0)) := by
  have hk : (List.filter (fun v => decide (v ≠ Space ∧ v ≠ LineBreak ∧ v ≠ EmptyByte)) x)
      = kept x := rfl
  refine ⟨?_, ?_⟩
  · simp only [Decode, hk]
    exact hex.Decode_err_iff (kept x)
  · intro h
    simp only [Decode, hk] at h ⊢
    have hs := hex.Decode_ok_spec (kept x) h
    rw [hs.1]
    simpa using hs

/-- C7, at a span that decodes: `"0a F\n1"` with a trailing zero byte gives the bytes
`0x0a, 0xf1`. -/
theorem C7_Decode_error_iff_witness :
    (Decode [48, 97, 32, 70, 10, 49, 0]).2 = none ∧
    (Decode [48, 97, 32, 70, 10, 49, 0]).1.length = 2 ∧
    ((Decode [48, 97, 32, 70, 10, 49, 0]).1.getD 1 0).val = 241 := by
  have h := (C7_Decode_error_iff [48, 97, 32, 70, 10, 49, 0]).2 (by decide)
  refine ⟨by decide, h.1, ?_⟩
  have h1 := h.2 1 (by decide)
  rw [h1]
  decide

/-! ### Resume after reopening -/

theorem encText_append (c : Nat) (a b : List Byte) :
    encText c (a ++ b) = encText c a ++ encText (encCount c a) b := by
  induction a generalizing c with
  | nil => simp [encText, encCount]
  | cons v rest ih => simp [encText, encCount, ih]

theorem encCount_append (c : Nat) (a b : List Byte) :
    encCount c (a ++ b) = encCount (encCount c a) b := by
  induction a generalizing c with
  | nil => simp [encCount]
  | cons v rest ih => simp [encCount, ih]

theorem encCount_eq (c : Nat) (a : List Byte) (hc : c < 16) :
    encCount c a = (c + a.length) % 16 := by
  induction a generalizing c with
  | nil => simp [encCount]; omega
  | cons v rest ih =>
    have hn : nextCount c < 16 := by unfold nextCount; split <;> omega
    simp only [encCount, ih _ hn, List.length_cons]
    unfold nextCount
    split <;> omega

theorem isHexDigit_hextable (n : Nat) (h : n < 16) : hex.isHexDigit (hex.hextable n) = true := by
  simp [hex.isHexDigit, hex.fromHexChar_hextable n h]

theorem rawOf_append (a b : List Byte) : rawOf (a ++ b) = rawOf a ++ rawOf b := by
  simp [rawOf]

theorem rawOf_Encode (v : Byte) : rawOf (hex.Encode v) = hex.Encode v := by
  have h1 : v.val / 16 < 16 := by have := v.isLt; omega
  have h2 : v.val % 16 < 16 := Nat.mod_lt _ (by decide)
  have a := hex.hextable_ne _ h1
  have c := hex.hextable_ne _ h2
  simp [rawOf, hex.Encode, a.1, a.2.1, c.1, c.2.1]

theorem rawOf_sepAfter (c : Nat) : rawOf (sepAfter c) = [] := by
  unfold sepAfter
  split
  · decide
  · split <;> decide

theorem length_sepAfter (c : Nat) (h : c + 1 < 16) :
    (sepAfter c).length = if (c + 1) % 2 = 0 then 1 else 0 := by
  unfold sepAfter
  have : ¬ c + 1 ≥ 16 := by omega
  simp only [this, if_false]
  split <;> rfl

theorem RowInv_step (F : List Byte) (c : Nat) (v : Byte) (h : RowInv F c) :
    RowInv (F ++ (hex.Encode v ++ sepAfter c)) (nextCount c) := by
  obtain ⟨hc, Q, P, hF, hQ, hP, hraw, hhex⟩ := h
  by_cases h16 : c + 1 ≥ 16
  · have hc15 : c = 15 := by omega
    subst hc15
    refine ⟨by decide, Q ++ (P ++ (hex.Encode v ++ sepAfter 15)), [], ?_, ?_, ?_, ?_, ?_⟩
    · simp [hF]
    · simp [hP, hex.Encode, sepAfter]
      omega
    · rfl
    · rfl
    · intro x hx
      simp [rawOf] at hx
  · have hn : nextCount c = c + 1 := by simp [nextCount, h16]
    rw [hn]
    refine ⟨by omega, Q, P ++ (hex.Encode v ++ sepAfter c), ?_, hQ, ?_, ?_, ?_⟩
    · simp [hF]
    · rw [List.length_append, List.length_append, length_sepAfter c (by omega), hP]
      simp only [hex.Encode, List.length_cons, List.length_nil]
      split <;> omega
    · rw [rawOf_append, rawOf_append, rawOf_Encode, rawOf_sepAfter]
      simp [hraw, hex.Encode]
      omega
    · intro x hx
      rw [rawOf_append, rawOf_append, rawOf_Encode, rawOf_sepAfter] at hx
      simp only [List.append_nil, List.mem_append] at hx
      rcases hx with hx | hx
      · exact hhex x hx
      · have h1 : v.val / 16 < 16 := by have := v.isLt; omega
        have h2 : v.val % 16 < 16 := Nat.mod_lt _ (by decide)
        simp only [hex.Encode, List.mem_cons, List.mem_singleton, List.not_mem_nil,
          or_false] at hx
        rcases hx with hx | hx
        · rw [hx]; exact isHexDigit_hextable _ h1
        · rw [hx]; exact isHexDigit_hextable _ h2

theorem RowInv_encText (F : List Byte) (c : Nat) (a : List Byte) (h : RowInv F c) :
    RowInv (F ++ encText c a) (encCount c a) := by
  induction a generalizing F c with
  | nil => simpa [encText, encCount] using h
  | cons v rest ih =>
    have := ih _ _ (RowInv_step F c v h)
    simpa [encText, encCount, List.append_assoc] using this

theorem RowInv_nil : RowInv [] 0 :=
  ⟨by decide, [], [], rfl, rfl, rfl, rfl, by intro x hx; simp [rawOf] at hx⟩

theorem Decode_digits_then_zero (n : Nat) (H t : List Byte) (hl : H.length = 2 * n)
    (hh : ∀ x ∈ H, hex.isHexDigit x = true) :
    (hex.Decode (H ++ 0 :: t)).1.length = n := by
  induction n generalizing H with
  | zero =>
    have : H = [] := List.eq_nil_of_length_eq_zero (by simpa using hl)
    subst this
    have h0 : hex.fromHexChar 0 = none := by decide
    cases t with
    | nil => simp [hex.Decode, h0]
    | cons q rest => simp [hex.Decode, h0]
  | succ m ih =>
    match H, hl with
    | p :: q :: H', hl =>
      have hp : hex.isHexDigit p = true := hh p (by simp)
      have hq : hex.isHexDigit q = true := hh q (by simp)
      obtain ⟨a, ha⟩ := Option.isSome_iff_exists.mp hp
      obtain ⟨b, hb⟩ := Option.isSome_iff_exists.mp hq
      have hl' : H'.length = 2 * m := by simp at hl; omega
      have := ih H' hl' (fun x hx => hh x (by simp [hx]))
      simp [hex.Decode, ha, hb, this]

theorem resumeCount_of_RowInv (F : List Byte) (c : Nat) (h : RowInv F c) :
    resumeCount F F.length = c := by
  obtain ⟨hc, Q, P, hF, hQ, hP, hraw, hhex⟩ := h
  have hPlt : P.length < 40 := by omega
  have hlen : F.length = Q.length + P.length := by simp [hF]
  have hoff : F.length / 40 * 40 = Q.length := by
    rw [hlen]
    omega
  have hdrop : F.drop Q.length = P := by simp [hF]
  have hgot : List.take 40 P = P := List.take_of_length_le (by omega)
  have hline : readAtInto F (List.replicate lineLength 0) (F.length / lineLength * lineLength)
      = P ++ List.replicate (40 - P.length) 0 := by
    simp only [readAtInto, lineLength, hoff, hdrop, List.length_replicate, hgot,
      List.drop_replicate]
  have hzero : (List.replicate (40 - P.length) (0 : Byte)).filter
      (fun v => decide (v ≠ 32 ∧ v ≠ 10)) = List.replicate (40 - P.length) 0 := by
    rw [List.filter_eq_self]
    intro x hx
    rw [List.eq_of_mem_replicate hx]
    decide
  have hk : 40 - P.length = (40 - P.length - 1) + 1 := by omega
  simp only [resumeCount, hline, List.filter_append, hzero, hex.DecodeString]
  rw [hk, List.replicate_succ]
  exact Decode_digits_then_zero c _ _ hraw hhex

/-- C5. Resume correctness: when the active segment holds exactly the text that `insertData a`
produces from row state 0 with an empty buffer, `New` sets `lastLineBytesCount` to
`len a mod 16` and starts with an empty buffer, and the segment followed by what
`insertData b` then buffers is the text that `insertData (a ++ b)` produces from row state 0
without reopening. -/
theorem C5_resume (a b : List Byte) (s0 : binaryLogger) (hbuf : s0.buf = [])
    (hrow : s0.lastLineBytesCount = 0) :
    (New (insertData a s0).1.buf).lastLineBytesCount = a.length % 16 ∧
    (New (insertData a s0).1.buf).buf = [] ∧
    (insertData a s0).1.buf ++ (insertData b (New (insertData a s0).1.buf)).1.buf
      = (insertData (a ++ b) s0).1.buf := by
  have hinv := RowInv_encText [] 0 a RowInv_nil
  simp only [List.nil_append] at hinv
  have hres := resumeCount_of_RowInv _ _ hinv
  have hcnt := encCount_eq 0 a (by decide)
  simp only [Nat.zero_add] at hcnt
  simp only [insertData_eq, hbuf, hrow, List.nil_append, New, calculateLogFileSize, hres, hcnt,
    encText_append, and_self, true_and]

/-- C5, at 19 bytes followed by one more byte: the reopened logger resumes in row state 3. -/
theorem C5_resume_witness :
    (New (insertData (List.replicate 19 7) (New [])).1.buf).lastLineBytesCount = 19 % 16 ∧
    (New (insertData (List.replicate 19 7) (New [])).1.buf).buf = [] ∧
    (insertData (List.replicate 19 7) (New [])).1.buf ++
        (insertData [255] (New (insertData (List.replicate 19 7) (New [])).1.buf)).1.buf
      = (insertData (List.replicate 19 7 ++ [255]) (New [])).1.buf :=
  C5_resume (List.replicate 19 7) [255] (New []) rfl (by decide)

/-! ### Row layout -/

theorem intercalate_concat (sep : List Byte) (gs : List (List Byte)) (g : List Byte) :
    sep.intercalate (gs ++ [g]) = (gs.map (fun x => x ++ sep)).flatten ++ g := by
  induction gs with
  | nil => simp [List.intercalate]
  | cons a tl ih =>
    cases tl with
    | nil => simp [List.intercalate]
    | cons b tl2 =>
      simp only [List.intercalate, List.cons_append, List.intersperse_cons_cons,
        List.flatten_cons, List.map_cons] at ih ⊢
      rw [ih]
      simp

theorem Encode_digits (v : Byte) : ∀ x ∈ hex.Encode v, hex.isHexDigit x = true := by
  intro x hx
  have h1 : v.val / 16 < 16 := by have := v.isLt; omega
  have h2 : v.val % 16 < 16 := Nat.mod_lt _ (by decide)
  simp only [hex.Encode, List.mem_cons, List.mem_singleton, List.not_mem_nil, or_false] at hx
  rcases hx with hx | hx
  · rw [hx]; exact isHexDigit_hextable _ h1
  · rw [hx]; exact isHexDigit_hextable _ h2

theorem RowsInv_step (F : List Byte) (t : Nat) (v : Byte) (h : RowsInv F t) :
    RowsInv (F ++ (hex.Encode v ++ sepAfter (t % 16))) (t + 1) := by
  obtain ⟨rows, last, hF, hrows, hfull, gs, rest, hgs, hg, hrest, hdig, hlast⟩ := h
  have hc : t % 16 < 16 := Nat.mod_lt _ (by decide)
  have hgroup : t % 2 = 1 → IsGroup (rest ++ hex.Encode v) := by
    intro hodd
    refine ⟨?_, ?_⟩
    · have : t % 16 % 2 = 1 := by omega
      simp [hrest, this, hex.Encode]
    · intro x hx
      rcases List.mem_append.mp hx with hx | hx
      · exact hdig x hx
      · exact Encode_digits v x hx
  by_cases h16 : t % 16 + 1 ≥ 16
  · -- the byte closes the row
    have h15 : t % 16 = 15 := by omega
    have hsep : sepAfter (t % 16) = [10] := by simp [sepAfter, h15]
    refine ⟨rows ++ [(gs.map (fun g => g ++ [32])).flatten ++ (rest ++ hex.Encode v)], [],
      ?_, ?_, ?_, ?_⟩
    · simp [hF, hlast, hsep]
    · simp [hrows]; omega
    · intro r hr
      rcases List.mem_append.mp hr with hr | hr
      · exact hfull r hr
      · simp only [List.mem_singleton] at hr
        refine ⟨gs ++ [rest ++ hex.Encode v], ?_, ?_, ?_⟩
        · simp [hgs, h15]
        · intro g hg2
          rcases List.mem_append.mp hg2 with hg2 | hg2
          · exact hg g hg2
          · simp only [List.mem_singleton] at hg2
            rw [hg2]
            exact hgroup (by omega)
        · rw [hr, intercalate_concat]
    · have h0 : (t + 1) % 16 = 0 := by omega
      exact ⟨[], [], by simp [h0], by simp, by simp [h0], by simp, by simp⟩
  · by_cases hodd : t % 2 = 1
    · -- the byte completes a group
      have hsep : sepAfter (t % 16) = [32] := by
        have : (t % 16 + 1) % 2 = 0 := by omega
        simp [sepAfter, h16, this]
      refine ⟨rows, (((gs ++ [rest ++ hex.Encode v]).map (fun g => g ++ [32])).flatten ++ []),
        ?_, ?_, hfull, gs ++ [rest ++ hex.Encode v], [], ?_, ?_, ?_, ?_, rfl⟩
      · simp [hF, hlast, hsep]
      · rw [hrows]; omega
      · simp [hgs]; omega
      · intro g hg2
        rcases List.mem_append.mp hg2 with hg2 | hg2
        · exact hg g hg2
        · simp only [List.mem_singleton] at hg2
          rw [hg2]
          exact hgroup hodd
      · simp; omega
      · simp
    · -- the byte starts a group
      have hsep : sepAfter (t % 16) = [] := by
        have : ¬ (t % 16 + 1) % 2 = 0 := by omega
        simp [sepAfter, h16, this]
      have hrest0 : rest = [] := by
        apply List.eq_nil_of_length_eq_zero
        rw [hrest]; omega
      refine ⟨rows, ((gs.map (fun g => g ++ [32])).flatten ++ hex.Encode v),
        ?_, ?_, hfull, gs, hex.Encode v, ?_, hg, ?_, Encode_digits v, rfl⟩
      · simp [hF, hlast, hsep, hrest0]
      · rw [hrows]; omega
      · rw [hgs]; omega
      · simp [hex.Encode]; omega

theorem nextCount_mod (t : Nat) : nextCount (t % 16) = (t + 1) % 16 := by
  unfold nextCount
  split <;> omega

theorem RowsInv_encText (F : List Byte) (t : Nat) (a : List Byte) (h : RowsInv F t) :
    RowsInv (F ++ encText (t % 16) a) (t + a.length) := by
  induction a generalizing F t with
  | nil => simpa [encText] using h
  | cons v rest ih =>
    have := ih _ _ (RowsInv_step F t v h)
    rw [← nextCount_mod] at this
    have e : t + (v :: rest).length = t + 1 + rest.length := by simp; omega
    rw [e]
    simpa [encText, List.append_assoc] using this

theorem RowsInv_nil : RowsInv [] 0 :=
  ⟨[], [], by simp, by simp, by simp, [], [], by simp, by simp, by simp, by simp, by simp⟩

theorem newline_not_digit (x : Byte) (h : hex.isHexDigit x = true) : x ≠ 10 := by
  intro e
  rw [e] at h
  revert h
  decide

theorem groups_no_newline (gs : List (List Byte)) (hg : ∀ g ∈ gs, IsGroup g) :
    (10 : Byte) ∉ (gs.map (fun g => g ++ [32])).flatten := by
  intro hmem
  simp only [List.mem_flatten, List.mem_map] at hmem
  obtain ⟨l, ⟨g, hgm, hl⟩, hx⟩ := hmem
  rw [← hl] at hx
  rcases List.mem_append.mp hx with hx | hx
  · exact newline_not_digit _ ((hg g hgm).2 _ hx) rfl
  · simp at hx

theorem IsLastRow_no_newline (k : Nat) (r : List Byte) (h : IsLastRow k r) : (10 : Byte) ∉ r := by
  obtain ⟨gs, rest, _, hg, _, hdig, hr⟩ := h
  rw [hr]
  intro hmem
  rcases List.mem_append.mp hmem with hmem | hmem
  · exact groups_no_newline gs hg hmem
  · exact newline_not_digit _ (hdig _ hmem) rfl

theorem IsFullRow_no_newline (r : List Byte) (h : IsFullRow r) : (10 : Byte) ∉ r := by
  obtain ⟨gs, hlen, hg, hr⟩ := h
  rcases List.eq_nil_or_concat gs with hnil | ⟨init, g, hcat⟩
  · rw [hnil] at hlen
    simp at hlen
  · rw [List.concat_eq_append] at hcat
    rw [hr, hcat, intercalate_concat]
    intro hmem
    rcases List.mem_append.mp hmem with hmem | hmem
    · exact groups_no_newline init (fun x hx => hg x (by rw [hcat]; simp [hx])) hmem
    · exact newline_not_digit _ ((hg g (by rw [hcat]; simp)).2 _ hmem) rfl

theorem space_not_digit (x : Byte) (h : hex.isHexDigit x = true) : x ≠ 32 := by
  intro e
  rw [e] at h
  revert h
  decide

theorem isGroup_of_IsGroup (g : List Byte) (h : IsGroup g) : isGroup g = true := by
  simp only [isGroup, Bool.and_eq_true, beq_iff_eq, List.all_eq_true]
  exact ⟨h.1, h.2⟩

theorem isFullRow_of_IsFullRow (r : List Byte) (h : IsFullRow r) : isFullRow r = true := by
  obtain ⟨gs, hlen, hg, hr⟩ := h
  have hsplit : r.splitOn 32 = gs := by
    rw [hr]
    apply List.splitOn_intercalate
    · intro l hl hmem
      exact space_not_digit _ ((hg l hl).2 _ hmem) rfl
    · intro e
      rw [e] at hlen
      simp at hlen
  simp only [isFullRow, hsplit, hlen, beq_self_eq_true, Bool.true_and, List.all_eq_true]
  exact fun g hgm => isGroup_of_IsGroup g (hg g hgm)

theorem isLastRow_of_IsLastRow (k : Nat) (r : List Byte) (h : IsLastRow k r) :
    isLastRow k r = true := by
  obtain ⟨gs, rest, hlen, hg, hrest, hdig, hr⟩ := h
  have hsplit : r.splitOn 32 = gs ++ [rest] := by
    rw [hr, ← intercalate_concat]
    apply List.splitOn_intercalate
    · intro l hl hmem
      rcases List.mem_append.mp hl with hl | hl
      · exact space_not_digit _ ((hg l hl).2 _ hmem) rfl
      · simp only [List.mem_singleton] at hl
        rw [hl] at hmem
        exact space_not_digit _ (hdig _ hmem) rfl
    · simp
  have htake : (gs ++ [rest]).take (k / 2) = gs := by
    rw [← hlen]
    simp
  have hdrop : (gs ++ [rest]).drop (k / 2) = [rest] := by
    rw [← hlen]
    simp
  simp only [isLastRow, hsplit, htake, hdrop, List.length_append, List.length_singleton, hlen,
    beq_self_eq_true, Bool.true_and, Bool.and_eq_true, List.all_eq_true, List.mem_singleton,
    forall_eq, hrest, beq_iff_eq]
  exact ⟨fun g hgm => isGroup_of_IsGroup g (hg g hgm), trivial, hdig⟩

/-- C6. Row integrity: the text `insertData a` produces from row state 0 with an empty
buffer, split at newline characters, is `len a / 16` rows followed by one last row; each of
the former is exactly 8 groups of 4 hexadecimal digits separated by single spaces and is
followed in the text by exactly one newline; the last row holds `len a mod 16` bytes, fewer
than 16, in the same grouping. -/
theorem C6_row_integrity (a : List Byte) (s0 : binaryLogger) (hbuf : s0.buf = [])
    (hrow : s0.lastLineBytesCount = 0) :
    ∃ (rows : List (List Byte)) (last : List Byte),
      (insertData a s0).1.buf.splitOn 10 = rows ++ [last] ∧
      (insertData a s0).1.buf = (rows.map (fun r => r ++ [10])).flatten ++ last ∧
      rows.length = a.length / 16 ∧
      (∀ r ∈ rows, isFullRow r = true) ∧
      isLastRow (a.length % 16) last = true ∧ a.length % 16 < 16 := by
  have hinv := RowsInv_encText [] 0 a RowsInv_nil
  simp only [List.nil_append, Nat.zero_mod, Nat.zero_add] at hinv
  obtain ⟨rows, last, hF, hrows, hfull, hlast⟩ := hinv
  refine ⟨rows, last, ?_, ?_, hrows, fun r hr => isFullRow_of_IsFullRow r (hfull r hr),
    isLastRow_of_IsLastRow _ _ hlast, Nat.mod_lt _ (by decide)⟩
  · simp only [insertData_eq, hbuf, hrow, List.nil_append, hF]
    rw [← intercalate_concat]
    apply List.splitOn_intercalate
    · intro l hl
      rcases List.mem_append.mp hl with hl | hl
      · exact IsFullRow_no_newline l (hfull l hl)
      · simp only [List.mem_singleton] at hl
        rw [hl]
        exact IsLastRow_no_newline _ _ hlast
    · simp
  · simp only [insertData_eq, hbuf, hrow, List.nil_append, hF]

/-- C6, at 17 bytes: one full row and a last row of one byte. -/
theorem C6_row_integrity_witness :
    ∃ (rows : List (List Byte)) (last : List Byte),
      (insertData (List.replicate 17 7) (New [])).1.buf.splitOn 10 = rows ++ [last] ∧
      (insertData (List.replicate 17 7) (New [])).1.buf
        = (rows.map (fun r => r ++ [10])).flatten ++ last ∧
      rows.length = (List.replicate 17 (7 : Byte)).length / 16 ∧
      (∀ r ∈ rows, isFullRow r = true) ∧
      isLastRow ((List.replicate 17 (7 : Byte)).length % 16) last = true ∧
      (List.replicate 17 (7 : Byte)).length % 16 < 16 :=
  C6_row_integrity (List.replicate 17 7) (New []) rfl (by decide)

end binarylog

/-! ## Proofs: flush and auto-flush in both stores -/

/-- C8. Flush is atomic on failure, in both stores: when `flush` performs the file write
(there are pending inserts) and that write returns an error, `flush` returns count 0 and an
error and leaves the write buffer, the pending insert count and the logical file size as
they were; a following flush whose write succeeds then hands the same buffer to the file and
returns the same pending count. -/
theorem C8_flush_failure_keeps_buffer (envB envS : Nat → WriteOutcome)
    (b : binarylog.binaryLogger) (s : eventstorage.EventStorage) (n m : Nat)
    (hb : b.insertsCount > 0) (hbw : envB b.writeCalls = .fail n)
    (hs : s.insertsCount > 0) (hsw : envS s.writeCalls = .fail m) :
    ((binarylog.flush envB b).2 = (0, some .flushFailed) ∧
      (binarylog.flush envB b).1.buf = b.buf ∧
      (binarylog.flush envB b).1.insertsCount = b.insertsCount ∧
      (binarylog.flush envB b).1.logFileSize = b.logFileSize ∧
      ∀ env2 : Nat → WriteOutcome, env2 (binarylog.flush envB b).1.writeCalls = .ok →
        (binarylog.flush env2 (binarylog.flush envB b).1).1.logFile
            = (binarylog.flush envB b).1.logFile ++ b.buf ∧
        (binarylog.flush env2 (binarylog.flush envB b).1).2 = (b.insertsCount, none)) ∧
    ((eventstorage.flush envS s).2 = (0, some .flushFailed) ∧
      (eventstorage.flush envS s).1.buf = s.buf ∧
      (eventstorage.flush envS s).1.insertsCount = s.insertsCount ∧
      (eventstorage.flush envS s).1.fileSize = s.fileSize ∧
      ∀ env2 : Nat → WriteOutcome, env2 (eventstorage.flush envS s).1.writeCalls = .ok →
        (eventstorage.flush env2 (eventstorage.flush envS s).1).1.file
            = (eventstorage.flush envS s).1.file ++ s.buf ∧
        (eventstorage.flush env2 (eventstorage.flush envS s).1).2 = (s.insertsCount, none)) := by
  have eb : binarylog.flush envB b =
      ({ b with logFile := fileAppend b.logFile b.buf (.fail n),
                writeCalls := b.writeCalls + 1 }, 0, some .flushFailed) := by
    simp [binarylog.flush, hb, hbw]
  have es : eventstorage.flush envS s =
      ({ s with file := fileAppend s.file s.buf (.fail m),
                writeCalls := s.writeCalls + 1 }, 0, some .flushFailed) := by
    simp [eventstorage.flush, hs, hsw]
  rw [eb, es]
  refine ⟨⟨rfl, rfl, rfl, rfl, ?_⟩, ⟨rfl, rfl, rfl, rfl, ?_⟩⟩
  · intro env2 h2
    simp only at h2
    simp [binarylog.flush, hb, h2, fileAppend]
  · intro env2 h2
    simp only at h2
    simp [eventstorage.flush, hs, h2, fileAppend]

/-- C8, at stores with one pending record `"a"` whose first write fails after 0 bytes. -/
theorem C8_flush_failure_keeps_buffer_witness :
    (binarylog.flush (fun _ => .fail 0)
        { binarylog.New [] with buf := [54, 49], insertsCount := 1 }).2
      = (0, some .flushFailed) ∧
    (eventstorage.flush (fun _ => .fail 0)
        { eventstorage.New [] [] with buf := [97, 10], insertsCount := 1 }).1.buf
      = [97, 10] := by
  have h := C8_flush_failure_keeps_buffer (fun _ => .fail 0) (fun _ => .fail 0)
    { binarylog.New [] with buf := [54, 49], insertsCount := 1 }
    { eventstorage.New [] [] with buf := [97, 10], insertsCount := 1 } 0 0
    (by decide) rfl (by decide) rfl
  exact ⟨h.1.1, h.2.2.1⟩

/-- C9. Idempotent flush, in both stores: a `Flush` that returns no error returns the number
of pending inserts and leaves that number at zero, and a second `Flush` directly after it
returns `(0, no error)` and leaves the whole store state, the segment file and the number
of file writes performed included, unchanged, whatever the file system would answer. -/
theorem C9_flush_idempotent (envB envS : Nat → WriteOutcome)
    (b : binarylog.binaryLogger) (s : eventstorage.EventStorage)
    (hb : (binarylog.Flush envB b).2.2 = none)
    (hs : (eventstorage.Flush envS s).2.2 = none) :
    ((binarylog.Flush envB b).2.1 = b.insertsCount ∧
      (binarylog.Flush envB b).1.insertsCount = 0 ∧
      ∀ env2 : Nat → WriteOutcome,
        binarylog.Flush env2 (binarylog.Flush envB b).1
          = ((binarylog.Flush envB b).1, 0, none)) ∧
    ((eventstorage.Flush envS s).2.1 = s.insertsCount ∧
      (eventstorage.Flush envS s).1.insertsCount = 0 ∧
      ∀ env2 : Nat → WriteOutcome,
        eventstorage.Flush env2 (eventstorage.Flush envS s).1
          = ((eventstorage.Flush envS s).1, 0, none)) := by
  constructor
  · unfold binarylog.Flush binarylog.flush at hb ⊢
    by_cases h0 : b.insertsCount > 0
    · cases hw : envB b.writeCalls with
      | ok => simp [h0, hw]
      | fail k => simp [h0, hw] at hb
    · have hz : b.insertsCount = 0 := by omega
      simp [hz]
  · unfold eventstorage.Flush eventstorage.flush at hs ⊢
    by_cases h0 : s.insertsCount > 0
    · cases hw : envS s.writeCalls with
      | ok => simp [h0, hw]
      | fail k => simp [h0, hw] at hs
    · have hz : s.insertsCount = 0 := by omega
      simp [hz]

/-- C9, at stores with two pending records whose write succeeds. -/
theorem C9_flush_idempotent_witness :
    (binarylog.Flush (fun _ => .ok)
        { binarylog.New [] with buf := [54, 49], insertsCount := 2 }).2.1 = 2 ∧
    (eventstorage.Flush (fun _ => .ok)
        { eventstorage.New [] [] with buf := [97, 10, 10], insertsCount := 2 }).2.1 = 2 := by
  have h := C9_flush_idempotent (fun _ => .ok) (fun _ => .ok)
    { binarylog.New [] with buf := [54, 49], insertsCount := 2 }
    { eventstorage.New [] [] with buf := [97, 10, 10], insertsCount := 2 }
    (by decide) (by decide)
  exact ⟨h.1.1, h.2.1⟩

/-- C10. Auto-flush by count with threshold 1, in both stores: when `autoFlushCount = 1`, the
file write of the call succeeds and the logical size after the record stays below the
maximum segment size (the call does not rotate), `Log`/`Write` returns no error, leaves the
write buffer empty and the pending insert count 0, and the active segment holds its content
before the call, then the bytes buffered before the call, then the encoded record: for
`Log` the text of `insertData data` followed by that of `insertData RowDelimiter`, for
`Write` the payload followed by `LineBreak`. -/
theorem C10_autoflush_one (envB envS : Nat → WriteOutcome)
    (rotB : binarylog.binaryLogger → binarylog.binaryLogger × Option StoreError)
    (rotS : eventstorage.EventStorage → eventstorage.EventStorage × Option StoreError)
    (RowDelimiter data : List Byte)
    (b : binarylog.binaryLogger) (s : eventstorage.EventStorage)
    (hbc : b.autoFlushCount = 1) (hbw : envB b.writeCalls = .ok)
    (hbr : ((b.logFileSize + ((binarylog.insertData data b).2 +
        (binarylog.insertData RowDelimiter (binarylog.insertData data b).1).2) : Nat) : Int)
          < b.logFileMaxSize)
    (hsc : s.autoFlushCount = 1) (hsw : envS s.writeCalls = .ok)
    (hsr : ((s.fileSize + (data.length + 1) : Nat) : Int) < s.fileMaxSize) :
    ((binarylog.Log envB rotB RowDelimiter data b).2.2 = none ∧
      (binarylog.Log envB rotB RowDelimiter data b).1.buf = [] ∧
      (binarylog.Log envB rotB RowDelimiter data b).1.insertsCount = 0 ∧
      (binarylog.Log envB rotB RowDelimiter data b).1.logFile
        = b.logFile ++ b.buf ++
          (binarylog.insertData RowDelimiter
            (binarylog.insertData data { b with buf := [] }).1).1.buf) ∧
    ((eventstorage.Write envS rotS data s).2.2 = none ∧
      (eventstorage.Write envS rotS data s).1.buf = [] ∧
      (eventstorage.Write envS rotS data s).1.insertsCount = 0 ∧
      (eventstorage.Write envS rotS data s).1.file
        = s.file ++ s.buf ++ (data ++ [eventstorage.LineBreak])) := by
  constructor
  · have hr : ¬ ((b.logFileSize : Int) +
        ((binarylog.encText b.lastLineBytesCount data).length +
          (binarylog.encText (binarylog.encCount b.lastLineBytesCount data) RowDelimiter).length)
        ≥ b.logFileMaxSize) := by
      simp only [binarylog.insertData_eq] at hbr
      push_cast at hbr
      omega
    simp [binarylog.Log, binarylog.insertData_eq, binarylog.flush, hbc, hbw, hr, fileAppend]
  · have hr : ¬ ((s.fileSize : Int) + (data.length + 1) ≥ s.fileMaxSize) := by
      push_cast at hsr
      omega
    simp [eventstorage.Write, eventstorage.flush, hsc, hsw, hr, fileAppend]

/-- C10, at fresh stores with threshold 1 and the record `"a"`. -/
theorem C10_autoflush_one_witness :
    (binarylog.Log (fun _ => .ok) (fun b => (b, none)) [13] [97]
        { binarylog.New [] with autoFlushCount := 1 }).1.logFile = [54, 49, 48, 100, 32] ∧
    (eventstorage.Write (fun _ => .ok) (fun s => (s, none)) [97]
        { eventstorage.New [] [] with autoFlushCount := 1 }).1.file = [97, 10] := by
  have h := C10_autoflush_one (fun _ => .ok) (fun _ => .ok) (fun b => (b, none))
    (fun s => (s, none)) [13] [97]
    { binarylog.New [] with autoFlushCount := 1 }
    { eventstorage.New [] [] with autoFlushCount := 1 }
    rfl rfl (by decide) rfl rfl (by decide)
  refine ⟨?_, ?_⟩
  · rw [h.1.2.2.2]; decide
  · rw [h.2.2.2.2]; decide

/-! ## Proofs: the paginated read -/

namespace eventstorage

theorem scanChunk_append (count offset : Int) (a b : List Byte) (r : read) :
    scanChunk count offset (a ++ b) r
      = (scanChunk count offset a r).andThen (scanChunk count offset b) := by
  induction a generalizing r with
  | nil => simp [scanChunk, Flow.andThen]
  | cons v rest ih =>
    simp only [List.cons_append, scanChunk]
    cases h : scanByte count offset v r with
    | next r1 => simp [ih]
    | returned r1 => simp [Flow.andThen]
    | panicked => simp [Flow.andThen]

theorem readFile_regular (L : Nat) (hL : 1 ≤ L) (count offset : Int) (content : List Byte)
    (fuel off : Nat) (r : read) (hfuel : content.length - off < fuel) :
    readFile L count offset (regularFile L content) fuel off r
      = some (scanChunk count offset (content.drop off) r) := by
  induction fuel generalizing off r with
  | zero => omega
  | succ n ih =>
    have hL0 : L ≠ 0 := by omega
    by_cases hoff : off < content.length
    · have hsplit : content.drop off
          = (content.drop off).take L ++ content.drop (off + L) := by
        rw [← List.drop_drop, List.take_append_drop]
      have hres : regularFile L content off = ⟨(content.drop off).take L, none⟩ := by
        simp [regularFile, hL0, hoff]
      rw [hsplit, scanChunk_append]
      simp only [readFile, hres]
      cases h : scanChunk count offset ((content.drop off).take L) r with
      | next r1 =>
        simp only [Flow.andThen]
        have := ih (off + L) r1 (by omega)
        simpa using this
      | returned r1 => simp [Flow.andThen]
      | panicked => simp [Flow.andThen]
    · have hres : regularFile L content off = ⟨[], some .eof⟩ := by
        simp [regularFile, hL0, hoff]
      have hd : content.drop off = [] := List.drop_eq_nil_of_le (by omega)
      simp [readFile, hres, hd, scanChunk]

theorem readFiles_regular (L : Nat) (hL : 1 ≤ L) (count offset : Int)
    (contents : List (List Byte)) (fuel : Nat) (r : read)
    (hfuel : ∀ c ∈ contents, c.length < fuel) :
    readFiles L count offset fuel (contents.map (regularFile L)) r
      = some (scanChunk count offset contents.flatten r) := by
  induction contents generalizing r with
  | nil => simp [readFiles, scanChunk]
  | cons c rest ih =>
    have h1 := readFile_regular L hL count offset c fuel 0 r
      (by have := hfuel c (by simp); omega)
    simp only [List.map_cons, readFiles, h1, List.drop_zero, List.flatten_cons, scanChunk_append]
    cases h : scanChunk count offset c r with
    | next r1 =>
      simp only [Flow.andThen]
      exact ih r1 (fun x hx => hfuel x (by simp [hx]))
    | returned r1 => simp [Flow.andThen]
    | panicked => simp [Flow.andThen]

/-- Scanning payload bytes: they are buffered once `offset` records have gone by. -/
theorem scanChunk_payload (c o : Nat) (rec : List Byte) (r : read)
    (hrec : LineBreak ∉ rec) :
    scanChunk c o rec r
      = .next (if o ≤ r.eventsCount then { r with buf := r.buf ++ rec } else r) := by
  induction rec generalizing r with
  | nil => by_cases h : o ≤ r.eventsCount <;> simp [scanChunk, h]
  | cons v rest ih =>
    have hv : v ≠ LineBreak := fun e => hrec (by simp [e])
    have hrest : LineBreak ∉ rest := fun e => hrec (by simp [e])
    by_cases h : o ≤ r.eventsCount
    · have hs : scanByte c o v r = .next { r with buf := r.buf ++ [v] } := by
        simp only [scanByte, hv, if_false]
        have : ((r.eventsCount : Int) ≥ o) := by exact_mod_cast h
        simp only [this, if_true]
        split <;> rfl
      simp [scanChunk, hs, ih _ hrest, h]
    · have hs : scanByte c o v r = .next r := by
        simp only [scanByte, hv, if_false]
        have h1 : ¬ ((r.eventsCount : Int) ≥ o) := by
          intro hh; exact h (by exact_mod_cast hh)
        have h2 : (r.eventsCount : Int) ≤ o := by
          have : r.eventsCount ≤ o := by omega
          exact_mod_cast this
        simp [h1, h2]
      simp [scanChunk, hs, ih _ hrest, h]

/-- A record before the page is skipped. -/
theorem scanChunk_skip_one (c o : Nat) (rec rest : List Byte) (r : read)
    (hrec : LineBreak ∉ rec) (he : r.eventsCount < o) :
    scanChunk c o (rec ++ [LineBreak] ++ rest) r
      = scanChunk c o rest { r with eventsCount := r.eventsCount + 1 } := by
  have h0 : ¬ o ≤ r.eventsCount := by omega
  have h2 : ((r.eventsCount : Int) + 1 ≤ o) := by
    have : r.eventsCount + 1 ≤ o := by omega
    exact_mod_cast this
  rw [List.append_assoc, scanChunk_append, scanChunk_payload c o rec r hrec]
  simp [h0, Flow.andThen, scanChunk, scanByte, h2]

theorem scanChunk_skip (c o : Nat) (rs : List (List Byte)) (rest : List Byte) (r : read)
    (hrs : ∀ x ∈ rs, LineBreak ∉ x) (he : r.eventsCount + rs.length ≤ o) :
    scanChunk c o (recordsBytes rs ++ rest) r
      = scanChunk c o rest { r with eventsCount := r.eventsCount + rs.length } := by
  induction rs generalizing r with
  | nil => simp [recordsBytes]
  | cons x tl ih =>
    have e : recordsBytes (x :: tl) ++ rest = x ++ [LineBreak] ++ (recordsBytes tl ++ rest) := by
      simp [recordsBytes]
    simp only [List.length_cons] at he
    rw [e, scanChunk_skip_one c o x _ r (hrs x (by simp)) (by omega)]
    rw [ih _ (fun y hy => hrs y (by simp [hy])) (by simp; omega)]
    simp only [List.length_cons]
    congr 2
    omega

/-- A record of the page is stored in the next free slot. -/
theorem scanChunk_take_one (c o : Nat) (rec rest : List Byte) (e : Nat)
    (pre : List (List Byte)) (m : Nat) (hrec : LineBreak ∉ rec) (he : o ≤ e) (hm : 1 ≤ m) :
    scanChunk c o (rec ++ [LineBreak] ++ rest)
        ⟨e, pre.length, [], pre ++ List.replicate m []⟩
      = if pre.length + 1 = c
        then .returned ⟨e + 1, pre.length + 1, [], pre ++ [rec] ++ List.replicate (m - 1) []⟩
        else scanChunk c o rest
          ⟨e + 1, pre.length + 1, [], pre ++ [rec] ++ List.replicate (m - 1) []⟩ := by
  have h2 : ¬ ((e : Int) + 1 ≤ o) := by
    intro hh
    have : e + 1 ≤ o := by exact_mod_cast hh
    omega
  have hset : (pre ++ List.replicate m ([] : List Byte)).set pre.length rec
      = pre ++ [rec] ++ List.replicate (m - 1) [] := by
    obtain ⟨k, rfl⟩ : ∃ k, m = k + 1 := ⟨m - 1, by omega⟩
    simp [List.replicate_succ, List.set_append]
  have hc : ((pre.length : Int) + 1 = c) ↔ pre.length + 1 = c := by
    constructor
    · intro hh; exact_mod_cast hh
    · intro hh; exact_mod_cast hh
  rw [List.append_assoc, scanChunk_append, scanChunk_payload c o rec _ hrec]
  simp only [he, if_true, Flow.andThen, List.nil_append, List.singleton_append, scanChunk,
    scanByte, Nat.cast_add, Nat.cast_one, h2, if_false, List.length_append,
    List.length_replicate, hset]
  have hlt : pre.length < pre.length + m := by omega
  simp only [hlt, if_true, hc]
  by_cases hcc : pre.length + 1 = c <;> simp [hcc]

/-! ### Records, and the write path without rotation -/

theorem recordsBytes_append (a b : List (List Byte)) :
    recordsBytes (a ++ b) = recordsBytes a ++ recordsBytes b := by
  simp [recordsBytes]

theorem recordsBytes_cons (x : List Byte) (tl : List (List Byte)) :
    recordsBytes (x :: tl) = x ++ [LineBreak] ++ recordsBytes tl := by
  simp [recordsBytes]

/-- The records of the page fill the free slots in order; the scan returns when the last
slot is filled. -/
theorem scanChunk_collect (c o : Nat) (rs : List (List Byte)) (e : Nat)
    (pre : List (List Byte)) (m : Nat) (hrs : ∀ x ∈ rs, LineBreak ∉ x) (he : o ≤ e)
    (hm : 1 ≤ m) (hk : pre.length + m = c) :
    scanChunk c o (recordsBytes rs) ⟨e, pre.length, [], pre ++ List.replicate m []⟩
      = if m ≤ rs.length
        then .returned ⟨e + m, pre.length + m, [], pre ++ rs.take m⟩
        else .next ⟨e + rs.length, pre.length + rs.length, [],
          pre ++ rs ++ List.replicate (m - rs.length) []⟩ := by
  induction rs generalizing e pre m with
  | nil =>
    have : ¬ m ≤ 0 := by omega
    simp [recordsBytes, scanChunk, this]
  | cons x tl ih =>
    rw [recordsBytes_cons, scanChunk_take_one c o x _ e pre m (hrs x (by simp)) he hm]
    by_cases h1 : pre.length + 1 = c
    · have hm1 : m = 1 := by omega
      subst hm1
      simp [h1]
    · obtain ⟨k, rfl⟩ : ∃ k, m = k + 1 := ⟨m - 1, by omega⟩
      have hk1 : 1 ≤ k := by omega
      have := ih (e + 1) (pre ++ [x]) k (fun y hy => hrs y (by simp [hy])) (by omega)
        hk1 (by simp; omega)
      simp only [List.length_append, List.length_singleton] at this
      simp only [h1, if_false, Nat.add_sub_cancel, this, List.length_cons]
      by_cases h2 : k ≤ tl.length
      · have h3 : k + 1 ≤ tl.length + 1 := by omega
        simp only [h2, h3, if_true, List.take_succ_cons]
        simp
        omega
      · have h3 : ¬ k + 1 ≤ tl.length + 1 := by omega
        simp only [h2, h3, if_false]
        simp
        omega

/-- The flat scan of a text made of whole records: slot `i` of the pre-sized output receives
record `offset + i`, the slots past the last record stay empty. -/
theorem scanChunk_records (c o : Nat) (hc : 1 ≤ c) (rs : List (List Byte))
    (hrs : ∀ x ∈ rs, LineBreak ∉ x) :
    ∃ r, (scanChunk c o (recordsBytes rs) ⟨0, 0, [], List.replicate c []⟩ = .next r ∨
          scanChunk c o (recordsBytes rs) ⟨0, 0, [], List.replicate c []⟩ = .returned r) ∧
      r.events = (rs.drop o).take c ++ List.replicate (c - (rs.length - o)) [] := by
  by_cases hon : o ≤ rs.length
  · have hsplit : recordsBytes rs = recordsBytes (rs.take o) ++ recordsBytes (rs.drop o) := by
      rw [← recordsBytes_append, List.take_append_drop]
    have hskip := scanChunk_skip c o (rs.take o) (recordsBytes (rs.drop o))
      ⟨0, 0, [], List.replicate c []⟩ (fun x hx => hrs x (List.mem_of_mem_take hx))
      (by simp)
    have hcol := scanChunk_collect c o (rs.drop o) o [] c
      (fun x hx => hrs x (List.mem_of_mem_drop hx)) (le_refl _) hc (by simp)
    simp only [List.length_take, Nat.zero_add, Nat.min_eq_left hon] at hskip
    simp only [List.length_nil, List.nil_append, Nat.zero_add, List.length_drop] at hcol
    rw [hsplit, hskip, hcol]
    by_cases h : c ≤ rs.length - o
    · rw [if_pos h]
      refine ⟨_, Or.inr rfl, ?_⟩
      have : c - (rs.length - o) = 0 := by omega
      simp [this]
    · rw [if_neg h]
      refine ⟨_, Or.inl rfl, ?_⟩
      have : List.take c (List.drop o rs) = List.drop o rs :=
        List.take_of_length_le (by simp; omega)
      simp [this]
  · have hskip := scanChunk_skip c o rs [] ⟨0, 0, [], List.replicate c []⟩ hrs
      (by simp; omega)
    simp only [List.append_nil, scanChunk] at hskip
    refine ⟨_, Or.inl hskip, ?_⟩
    have hd : List.drop o rs = [] := List.drop_eq_nil_of_le (by omega)
    have : c - (rs.length - o) = c := by omega
    simp [hd, this]

theorem makeStrings_of_le (memLimit c : Nat) (h : c ≤ sliceLimit memLimit) :
    makeStrings memLimit c = .ok (List.replicate c []) := by
  have h1 : ¬ ((c : Int) < 0) := by omega
  have h2 : ¬ ((c : Int) > (sliceLimit memLimit : Nat)) := by
    intro hh
    have : sliceLimit memLimit < c := by exact_mod_cast hh
    omega
  simp [makeStrings, h1, h2]

theorem makeStrings_of_lt (memLimit c : Nat) (h : sliceLimit memLimit < c) :
    makeStrings memLimit c = .panic := by
  have h2 : (c : Int) > (sliceLimit memLimit : Nat) := by exact_mod_cast h
  simp [makeStrings, h2]

/-- `Read` over readable segment files that together hold whole records: the pre-sized
output when `make` can allocate `c` strings, a panic when it cannot. -/
theorem Read_records (memLimit L : Nat) (hL : 1 ≤ L) (segs : List (List Byte))
    (rs : List (List Byte)) (hsegs : segs.flatten = recordsBytes rs)
    (hrs : ∀ x ∈ rs, LineBreak ∉ x) (c o : Nat) (hc : 1 ≤ c) (fuel : Nat)
    (hfuel : ∀ x ∈ segs, x.length < fuel) :
    Read memLimit L (segs.map (regularFile L)) c o fuel
      = if c ≤ sliceLimit memLimit
        then some (.ok ((rs.drop o).take c ++ List.replicate (c - (rs.length - o)) []))
        else some .panic := by
  by_cases hcap : c ≤ sliceLimit memLimit
  · obtain ⟨r, hr, hev⟩ := scanChunk_records c o hc rs hrs
    simp only [Read, makeStrings_of_le memLimit c hcap, hcap, if_true, ReadTo,
      readFiles_regular L hL c o segs fuel _ hfuel, hsegs]
    rcases hr with hr | hr <;> simp [hr, hev]
  · simp only [Read, makeStrings_of_lt memLimit c (by omega), hcap, if_false]

theorem Write_no_rotate (env : Nat → WriteOutcome)
    (rot : EventStorage → EventStorage × Option StoreError) (data : List Byte)
    (s : EventStorage) (hok : env s.writeCalls = .ok)
    (hsz : ((s.fileSize + (data.length + 1) : Nat) : Int) < s.fileMaxSize) :
    (Write env rot data s).1.file ++ (Write env rot data s).1.buf
        = s.file ++ s.buf ++ (data ++ [LineBreak]) ∧
    (Write env rot data s).1.fileSize = s.fileSize + (data.length + 1) ∧
    (Write env rot data s).1.sealed = s.sealed ∧
    (Write env rot data s).1.fileMaxSize = s.fileMaxSize ∧
    ((Write env rot data s).1.buf ≠ [] → (Write env rot data s).1.insertsCount > 0) := by
  have hr : ¬ ((s.fileSize : Int) + (data.length + 1) ≥ s.fileMaxSize) := by
    push_cast at hsz
    omega
  by_cases hc : s.autoFlushCount > 0 ∧ ((s.insertsCount : Int) + 1) ≥ s.autoFlushCount
  · simp [Write, flush, hc, hok, hr, fileAppend]
  · simp [Write, hc, hr]

theorem writeAll_spec (env : Nat → WriteOutcome) (henv : ∀ k, env k = .ok)
    (rot : EventStorage → EventStorage × Option StoreError) (rs : List (List Byte))
    (s : EventStorage)
    (hsz : ((s.fileSize + (recordsBytes rs).length : Nat) : Int) < s.fileMaxSize)
    (hinv : s.buf ≠ [] → s.insertsCount > 0) :
    (writeAll env rot rs s).file ++ (writeAll env rot rs s).buf
        = s.file ++ s.buf ++ recordsBytes rs ∧
    (writeAll env rot rs s).sealed = s.sealed ∧
    ((writeAll env rot rs s).buf ≠ [] → (writeAll env rot rs s).insertsCount > 0) := by
  induction rs generalizing s with
  | nil => simpa [writeAll, recordsBytes] using hinv
  | cons x tl ih =>
    have hlen : (recordsBytes (x :: tl)).length = (x.length + 1) + (recordsBytes tl).length := by
      simp [recordsBytes_cons]
      omega
    rw [hlen] at hsz
    have hw := Write_no_rotate env rot x s (henv _) (by push_cast at hsz ⊢; omega)
    obtain ⟨h1, h2, h3, h4, h5⟩ := hw
    have := ih (Write env rot x s).1 (by rw [h2, h4]; push_cast at hsz ⊢; omega) h5
    simp only [writeAll]
    refine ⟨?_, ?_, this.2.2⟩
    · rw [this.1, h1, recordsBytes_cons]
      simp
    · rw [this.2.1, h3]

theorem Flush_ok_file (env : Nat → WriteOutcome) (henv : ∀ k, env k = .ok) (s : EventStorage)
    (hinv : s.buf ≠ [] → s.insertsCount > 0) :
    (Flush env s).1.file = s.file ++ s.buf ∧ (Flush env s).1.sealed = s.sealed := by
  by_cases h : s.insertsCount > 0
  · simp [Flush, flush, h, henv, fileAppend]
  · have hb : s.buf = [] := by
      by_contra hne
      exact h (hinv hne)
    simp [Flush, flush, h, hb]

/-! ### The claims on `Read` -/

/-- C2. Pagination, full page: records `rs` free of `LineBreak` are written with `Write`, one
call each, to an empty store (empty segment, empty buffer, logical size 0) whose file writes
succeed, the total size staying below the rotation threshold, and the store is flushed.
Then for `count ≥ 1` and `offset + count ≤ len rs`, `Read(count, offset)` returns exactly
the records `offset .. offset + count - 1` in write order, for every read buffer size
`readBufLimit ≥ 1` and every `fuel` above the size of the segment; the one exception is
a `count` that `make([]string, count)` cannot allocate, where `Read` panics. -/
theorem C2_read_full_page (memLimit L : Nat) (hL : 1 ≤ L) (env : Nat → WriteOutcome)
    (henv : ∀ k, env k = .ok) (rot : EventStorage → EventStorage × Option StoreError)
    (s : EventStorage) (hbuf : s.buf = []) (hfile : s.file = []) (hsealed : s.sealed = [])
    (hsize : s.fileSize = 0) (rs : List (List Byte)) (hrs : ∀ r ∈ rs, LineBreak ∉ r)
    (hmax : ((recordsBytes rs).length : Int) < s.fileMaxSize)
    (count offset : Nat) (hc : 1 ≤ count) (hoc : offset + count ≤ rs.length)
    (fuel : Nat) (hfuel : (recordsBytes rs).length < fuel) :
    (Flush env (writeAll env rot rs s)).1.Read memLimit L count offset fuel
      = if count ≤ sliceLimit memLimit then some (.ok ((rs.drop offset).take count))
        else some .panic := by
  have hw := writeAll_spec env henv rot rs s (by rw [hsize]; simpa using hmax)
    (by intro h; exact absurd hbuf h)
  have hf := Flush_ok_file env henv (writeAll env rot rs s) hw.2.2
  have hcontent : (Flush env (writeAll env rot rs s)).1.file = recordsBytes rs := by
    rw [hf.1, hw.1, hfile, hbuf]
    simp
  have hseal : (Flush env (writeAll env rot rs s)).1.sealed = [] := by
    rw [hf.2, hw.2.1, hsealed]
  have h := Read_records memLimit L hL [recordsBytes rs] rs (by simp) hrs count offset hc fuel
    (by simpa using hfuel)
  have hz : count - (rs.length - offset) = 0 := by omega
  simp only [hz, List.replicate_zero, List.append_nil] at h
  simpa [EventStorage.Read, EventStorage.readableFiles, hcontent, hseal] using h

/-- C2, at the records `a, b, c, d, e` written to a fresh store: `Read(2, 1)` returns
`b, c`. -/
theorem C2_read_full_page_witness :
    (Flush (fun _ => .ok)
        (writeAll (fun _ => .ok) (fun s => (s, none)) [[97], [98], [99], [100], [101]]
          (New [] []))).1.Read 1000 4 2 1 11
      = some (.ok [[98], [99]]) :=
  (C2_read_full_page 1000 4 (by decide) (fun _ => .ok) (fun _ => rfl) (fun s => (s, none))
    (New [] []) rfl rfl rfl rfl [[97], [98], [99], [100], [101]] (by decide) (by decide)
    2 1 (by decide) (by decide) 11 (by decide)).trans (by decide)

/-- C3 as stated fails at its own example: over the five records `a, b, c, d, e`,
`Read(10, 3)` returns ten strings, `d`, `e` and eight empty ones, not the two-element
sequence `d, e`. -/
theorem C3_counterexample :
    (New [] [97, 10, 98, 10, 99, 10, 100, 10, 101, 10]).Read 1000 4 10 3 11
      = some (.ok [[100], [101], [], [], [], [], [], [], [], []]) ∧
    (New [] [97, 10, 98, 10, 99, 10, 100, 10, 101, 10]).Read 1000 4 10 3 11
      ≠ some (.ok [[100], [101]]) := by
  decide

/-- C3, amended. Pagination, exhausted store: when the segments of a store, all readable,
hold in order exactly the records `rs`, each free of `LineBreak` and followed by one, then
for `offset ≤ len rs` and `count > len rs - offset`: if `make([]string, count)` can
allocate `count` strings, `Read(count, offset)` does not fail and returns a sequence of
length `count`, the `len rs - offset` records from `offset` on, in order, followed by
empty strings; if it cannot, `Read` panics. -/
theorem C3_read_exhausted (memLimit L : Nat) (hL : 1 ≤ L) (s : EventStorage)
    (rs : List (List Byte)) (hstore : (s.sealed ++ [s.file]).flatten = recordsBytes rs)
    (hrs : ∀ r ∈ rs, LineBreak ∉ r) (count offset : Nat) (ho : offset ≤ rs.length)
    (hc : count > rs.length - offset) (fuel : Nat)
    (hfuel : ∀ x ∈ s.sealed ++ [s.file], x.length < fuel) :
    s.Read memLimit L count offset fuel
      = (if count ≤ sliceLimit memLimit
         then some (.ok (rs.drop offset ++ List.replicate (count - (rs.length - offset)) []))
         else some .panic) ∧
    (rs.drop offset ++ List.replicate (count - (rs.length - offset)) ([] : List Byte)).length
      = count := by
  have h := Read_records memLimit L hL (s.sealed ++ [s.file]) rs hstore hrs count offset
    (by omega) fuel hfuel
  have ht : List.take count (List.drop offset rs) = List.drop offset rs :=
    List.take_of_length_le (by simp; omega)
  rw [ht] at h
  refine ⟨by simpa [EventStorage.Read, EventStorage.readableFiles] using h, ?_⟩
  simp
  omega

/-- C3 amended, at the five records `a, b, c, d, e` spread over two segments. -/
theorem C3_read_exhausted_witness :
    (New [[97, 10, 98, 10, 99]] [10, 100, 10, 101, 10]).Read 1000 4 10 3 6
      = some (.ok [[100], [101], [], [], [], [], [], [], [], []]) :=
  ((C3_read_exhausted 1000 4 (by decide) (New [[97, 10, 98, 10, 99]] [10, 100, 10, 101, 10])
    [[97], [98], [99], [100], [101]] (by decide) (by decide) 10 3 (by decide) (by decide) 6
    (by decide)).1).trans (by decide)

/-- For `count ≥ 1` that `make` can allocate, the output of `Read` is pre-sized: over
readable segments that hold in order exactly the records `rs`, the result has length
`count`, its first `min count (len rs - offset)` slots hold the records from `offset` on
and every later slot is the empty string. -/
theorem Read_presized_of_pos (memLimit L : Nat) (hL : 1 ≤ L) (s : EventStorage)
    (rs : List (List Byte)) (hstore : (s.sealed ++ [s.file]).flatten = recordsBytes rs)
    (hrs : ∀ r ∈ rs, LineBreak ∉ r) (count offset : Nat) (hc : 1 ≤ count)
    (hcap : count ≤ sliceLimit memLimit) (fuel : Nat)
    (hfuel : ∀ x ∈ s.sealed ++ [s.file], x.length < fuel) :
    s.Read memLimit L count offset fuel
      = some (.ok ((rs.drop offset).take count
          ++ List.replicate (count - (rs.length - offset)) [])) ∧
    ((rs.drop offset).take count).length = min count (rs.length - offset) ∧
    ((rs.drop offset).take count
      ++ List.replicate (count - (rs.length - offset)) ([] : List Byte)).length = count := by
  have h := Read_records memLimit L hL (s.sealed ++ [s.file]) rs hstore hrs count offset hc
    fuel hfuel
  rw [if_pos hcap] at h
  refine ⟨by simpa [EventStorage.Read, EventStorage.readableFiles] using h, by simp, ?_⟩
  simp
  omega

theorem Read_of_make_panic (memLimit L : Nat) (files : List ReadableFile)
    (count offset : Int) (fuel : Nat) (h : makeStrings memLimit count = .panic) :
    Read memLimit L files count offset fuel = some .panic := by
  unfold Read
  rw [h]

/-- A `count` beyond what the runtime accepts for a slice of strings makes `Read` panic
before any file is read, as `Read(1 << 62, 0)` does. -/
theorem Read_panics_of_large (memLimit L : Nat) (files : List ReadableFile) (offset : Int)
    (fuel : Nat) :
    Read memLimit L files 4611686018427387904 offset fuel = some .panic := by
  have h1 : sliceLimit memLimit ≤ maxSliceLen := Nat.min_le_right _ _
  have h0 : maxSliceLen = 17592186044416 := rfl
  have h4 : (4611686018427387904 : Int) > ((sliceLimit memLimit : Nat) : Int) := by
    omega
  have h5 : makeStrings memLimit 4611686018427387904 = .panic := by
    unfold makeStrings
    rw [if_pos (Or.inr h4)]
  exact Read_of_make_panic memLimit L files _ offset fuel h5

/-- C4 fails at `count = 0`: over a store holding the single record `a`, `Read(0, 0)` does
not return the empty sequence; the assignment `events[0]` on the slice of length 0 is out
of range and the call panics, whatever memory is left for `make`. -/
theorem C4_read_count_zero_panics (memLimit : Nat) :
    (New [] [97, 10]).Read memLimit 4 0 0 2 = some .panic := by
  have h := makeStrings_of_le memLimit 0 (Nat.zero_le _)
  simp only [Nat.cast_zero, List.replicate_zero] at h
  simp only [EventStorage.Read, Read, h]
  decide

end eventstorage

/-! ## Proofs: how far `Log` and `Write` get before the rotation -/

namespace binarylog

theorem log_stage_link_aux (env : Nat → WriteOutcome)
    (rot : binaryLogger → binaryLogger × Option StoreError) (len : Nat)
    (f1 : binaryLogger × Nat × Option StoreError) :
    (match f1.2.2 with
      | some e => (f1.1, len, some e)
      | none =>
        if (f1.1.logFileSize : Int) ≥ f1.1.logFileMaxSize then
          match (flush env f1.1).2.2 with
          | some e => ((flush env f1.1).1, len, some e)
          | none => ((rot (flush env f1.1).1).1, len, (rot (flush env f1.1).1).2)
        else (f1.1, len, none))
    = match (match f1.2.2 with
        | some e => (Stage.finished f1.1 (some e), len)
        | none =>
          if (f1.1.logFileSize : Int) ≥ f1.1.logFileMaxSize then
            match (flush env f1.1).2.2 with
            | some e => (Stage.finished (flush env f1.1).1 (some e), len)
            | none => (Stage.rotating (flush env f1.1).1, len)
          else (Stage.finished f1.1 none, len)) with
      | (.finished b1 e, l) => (b1, l, e)
      | (.rotating b1, l) => ((rot b1).1, l, (rot b1).2) := by
  cases h1 : f1.2.2 with
  | some e => simp only []
  | none =>
    simp only []
    by_cases hbig : (f1.1.logFileSize : Int) ≥ f1.1.logFileMaxSize
    · simp only [hbig, if_true]
      cases h2 : (flush env f1.1).2.2 with
      | some e => simp only []
      | none => simp only []
    · simp only [hbig, if_false]

/-- `Log` is its body up to the rotation, followed by the rotation when that is reached. -/
theorem Log_eq_logStage (env : Nat → WriteOutcome)
    (rot : binaryLogger → binaryLogger × Option StoreError) (RD data : List Byte)
    (b : binaryLogger) :
    Log env rot RD data b =
      match logStage env RD data b with
      | (.finished b1 e, l) => (b1, l, e)
      | (.rotating b1, l) => ((rot b1).1, l, (rot b1).2) :=
  log_stage_link_aux env rot _ _


/-- The stage `Log` reaches, case by case: with `b1` the logger after the record is
buffered and counted, the call writes the buffer if the count trigger or the size trigger
fires; it reaches the rotation exactly when the size trigger fires and the write succeeds. -/
theorem logStage_eq (env : Nat → WriteOutcome) (RD data : List Byte) (b : binaryLogger) :
    logStage env RD data b =
      (if (b.autoFlushCount > 0 ∧ (b.insertsCount : Int) + 1 ≥ b.autoFlushCount) ∨
          ((b.logFileSize : Int) + ((insertData data b).2 +
            (insertData RD (insertData data b).1).2 : Nat) ≥ b.logFileMaxSize) then
        match env b.writeCalls with
        | .ok =>
          if ((b.logFileSize : Int) + ((insertData data b).2 +
              (insertData RD (insertData data b).1).2 : Nat) ≥ b.logFileMaxSize) then
            Stage.rotating
              { (insertData RD (insertData data b).1).1 with
                logFileSize := b.logFileSize + ((insertData data b).2 +
                  (insertData RD (insertData data b).1).2),
                logFile := b.logFile ++ (insertData RD (insertData data b).1).1.buf,
                writeCalls := b.writeCalls + 1, buf := [], insertsCount := 0 }
          else
            Stage.finished
              { (insertData RD (insertData data b).1).1 with
                logFileSize := b.logFileSize + ((insertData data b).2 +
                  (insertData RD (insertData data b).1).2),
                logFile := b.logFile ++ (insertData RD (insertData data b).1).1.buf,
                writeCalls := b.writeCalls + 1, buf := [], insertsCount := 0 } none
        | .fail n =>
          Stage.finished
            { (insertData RD (insertData data b).1).1 with
              logFileSize := b.logFileSize + ((insertData data b).2 +
                (insertData RD (insertData data b).1).2),
              insertsCount := b.insertsCount + 1,
              logFile := fileAppend b.logFile (insertData RD (insertData data b).1).1.buf
                (.fail n),
              writeCalls := b.writeCalls + 1 } (some .flushFailed)
      else
        Stage.finished
          { (insertData RD (insertData data b).1).1 with
            logFileSize := b.logFileSize + ((insertData data b).2 +
              (insertData RD (insertData data b).1).2),
            insertsCount := b.insertsCount + 1 } none,
      (insertData data b).2 + (insertData RD (insertData data b).1).2) := by
  simp only [insertData_eq]
  by_cases htrig : b.autoFlushCount > 0 ∧ (b.insertsCount : Int) + 1 ≥ b.autoFlushCount
  · by_cases hbig : b.logFileMaxSize ≤ (b.logFileSize : Int) +
        (((encText b.lastLineBytesCount data).length : Int) +
          ((encText (encCount b.lastLineBytesCount data) RD).length : Int))
    · cases henv : env b.writeCalls with
      | ok => simp [logStage, insertData_eq, flush, htrig, hbig, henv, fileAppend]
      | fail n => simp [logStage, insertData_eq, flush, htrig, hbig, henv, fileAppend]
    · cases henv : env b.writeCalls with
      | ok => simp [logStage, insertData_eq, flush, htrig, hbig, henv, fileAppend]
      | fail n => simp [logStage, insertData_eq, flush, htrig, hbig, henv, fileAppend]
  · by_cases hbig : b.logFileMaxSize ≤ (b.logFileSize : Int) +
        (((encText b.lastLineBytesCount data).length : Int) +
          ((encText (encCount b.lastLineBytesCount data) RD).length : Int))
    · cases henv : env b.writeCalls with
      | ok => simp [logStage, insertData_eq, flush, htrig, hbig, henv, fileAppend]
      | fail n => simp [logStage, insertData_eq, flush, htrig, hbig, henv, fileAppend]
    · cases henv : env b.writeCalls with
      | ok => simp [logStage, insertData_eq, flush, htrig, hbig, henv, fileAppend]
      | fail n => simp [logStage, insertData_eq, flush, htrig, hbig, henv, fileAppend]

end binarylog

namespace eventstorage

theorem write_stage_link_aux (env : Nat → WriteOutcome)
    (rot : EventStorage → EventStorage × Option StoreError) (len : Nat)
    (f1 : EventStorage × Nat × Option StoreError) :
    (match f1.2.2 with
      | some e => (f1.1, len, some e)
      | none =>
        if (f1.1.fileSize : Int) ≥ f1.1.fileMaxSize then
          match (flush env f1.1).2.2 with
          | some e => ((flush env f1.1).1, len, some e)
          | none => ((rot (flush env f1.1).1).1, len, (rot (flush env f1.1).1).2)
        else (f1.1, len, none))
    = match (match f1.2.2 with
        | some e => (Stage.finished f1.1 (some e), len)
        | none =>
          if (f1.1.fileSize : Int) ≥ f1.1.fileMaxSize then
            match (flush env f1.1).2.2 with
            | some e => (Stage.finished (flush env f1.1).1 (some e), len)
            | none => (Stage.rotating (flush env f1.1).1, len)
          else (Stage.finished f1.1 none, len)) with
      | (.finished b1 e, l) => (b1, l, e)
      | (.rotating b1, l) => ((rot b1).1, l, (rot b1).2) := by
  cases h1 : f1.2.2 with
  | some e => simp only []
  | none =>
    simp only []
    by_cases hbig : (f1.1.fileSize : Int) ≥ f1.1.fileMaxSize
    · simp only [hbig, if_true]
      cases h2 : (flush env f1.1).2.2 with
      | some e => simp only []
      | none => simp only []
    · simp only [hbig, if_false]

/-- `Write` is its body up to the rotation, followed by the rotation when that is
reached. -/
theorem Write_eq_writeStage (env : Nat → WriteOutcome)
    (rot : EventStorage → EventStorage × Option StoreError) (data : List Byte)
    (s : EventStorage) :
    Write env rot data s =
      match writeStage env data s with
      | (.finished s1 e, l) => (s1, l, e)
      | (.rotating s1, l) => ((rot s1).1, l, (rot s1).2) :=
  write_stage_link_aux env rot _ _

/-- The stage `Write` reaches, case by case. -/
theorem writeStage_eq (env : Nat → WriteOutcome) (data : List Byte) (s : EventStorage) :
    writeStage env data s =
      (if (s.autoFlushCount > 0 ∧ (s.insertsCount : Int) + 1 ≥ s.autoFlushCount) ∨
          (s.fileMaxSize ≤ (s.fileSize : Int) + ((data.length : Int) + 1)) then
        match env s.writeCalls with
        | .ok =>
          if s.fileMaxSize ≤ (s.fileSize : Int) + ((data.length : Int) + 1) then
            Stage.rotating
              { s with fileSize := s.fileSize + (data.length + 1),
                       file := s.file ++ (s.buf ++ data ++ [LineBreak]),
                       writeCalls := s.writeCalls + 1, buf := [], insertsCount := 0 }
          else
            Stage.finished
              { s with fileSize := s.fileSize + (data.length + 1),
                       file := s.file ++ (s.buf ++ data ++ [LineBreak]),
                       writeCalls := s.writeCalls + 1, buf := [], insertsCount := 0 } none
        | .fail n =>
          Stage.finished
            { s with buf := s.buf ++ data ++ [LineBreak],
                     fileSize := s.fileSize + (data.length + 1),
                     insertsCount := s.insertsCount + 1,
                     file := fileAppend s.file (s.buf ++ data ++ [LineBreak]) (.fail n),
                     writeCalls := s.writeCalls + 1 } (some .flushFailed)
      else
        Stage.finished
          { s with buf := s.buf ++ data ++ [LineBreak],
                   fileSize := s.fileSize + (data.length + 1),
                   insertsCount := s.insertsCount + 1 } none,
      data.length + 1) := by
  by_cases htrig : s.autoFlushCount > 0 ∧ (s.insertsCount : Int) + 1 ≥ s.autoFlushCount
  · by_cases hbig : s.fileMaxSize ≤ (s.fileSize : Int) + ((data.length : Int) + 1)
    · cases henv : env s.writeCalls with
      | ok => simp [writeStage, flush, htrig, hbig, henv, fileAppend]
      | fail n => simp [writeStage, flush, htrig, hbig, henv, fileAppend]
    · cases henv : env s.writeCalls with
      | ok => simp [writeStage, flush, htrig, hbig, henv, fileAppend]
      | fail n => simp [writeStage, flush, htrig, hbig, henv, fileAppend]
  · by_cases hbig : s.fileMaxSize ≤ (s.fileSize : Int) + ((data.length : Int) + 1)
    · cases henv : env s.writeCalls with
      | ok => simp [writeStage, flush, htrig, hbig, henv, fileAppend]
      | fail n => simp [writeStage, flush, htrig, hbig, henv, fileAppend]
    · cases henv : env s.writeCalls with
      | ok => simp [writeStage, flush, htrig, hbig, henv, fileAppend]
      | fail n => simp [writeStage, flush, htrig, hbig, henv, fileAppend]

end eventstorage

/-! ## Proofs: rotation trigger, size accounting and the buffer invariant -/

namespace binarylog

theorem Log_of_rotating (env : Nat → WriteOutcome) (RD data : List Byte)
    (b b1 : binaryLogger) (h : (logStage env RD data b).1 = .rotating b1)
    (rot : binaryLogger → binaryLogger × Option StoreError) :
    Log env rot RD data b = ((rot b1).1, (logStage env RD data b).2, (rot b1).2) := by
  rw [Log_eq_logStage]
  generalize logStage env RD data b = p at h ⊢
  obtain ⟨st, l⟩ := p
  simp only at h
  subst h
  rfl

theorem Log_of_finished (env : Nat → WriteOutcome) (RD data : List Byte)
    (b b1 : binaryLogger) (e : Option StoreError)
    (h : (logStage env RD data b).1 = .finished b1 e)
    (rot : binaryLogger → binaryLogger × Option StoreError) :
    Log env rot RD data b = (b1, (logStage env RD data b).2, e) := by
  rw [Log_eq_logStage]
  generalize logStage env RD data b = p at h ⊢
  obtain ⟨st, l⟩ := p
  simp only at h
  subst h
  rfl

end binarylog

namespace eventstorage

theorem Write_of_rotating (env : Nat → WriteOutcome) (data : List Byte)
    (s s1 : EventStorage) (h : (writeStage env data s).1 = .rotating s1)
    (rot : EventStorage → EventStorage × Option StoreError) :
    Write env rot data s = ((rot s1).1, (writeStage env data s).2, (rot s1).2) := by
  rw [Write_eq_writeStage]
  generalize writeStage env data s = p at h ⊢
  obtain ⟨st, l⟩ := p
  simp only at h
  subst h
  rfl

theorem Write_of_finished (env : Nat → WriteOutcome) (data : List Byte)
    (s s1 : EventStorage) (e : Option StoreError)
    (h : (writeStage env data s).1 = .finished s1 e)
    (rot : EventStorage → EventStorage × Option StoreError) :
    Write env rot data s = (s1, (writeStage env data s).2, e) := by
  rw [Write_eq_writeStage]
  generalize writeStage env data s = p at h ⊢
  obtain ⟨st, l⟩ := p
  simp only at h
  subst h
  rfl

end eventstorage

/-- C12. Rotation trigger, in both stores: a `Log`/`Write` call reaches the call of the
rotation if and only if the logical size after adding the record is at least the maximum
segment size and the file write of the call, the one its flushes perform, succeeds.  The
store the rotation is then called on has an empty write buffer and pending insert count 0,
and its segment holds the content before the call followed by everything buffered, the
record included.  The result of the call is then the result of the rotation; a call that
does not reach the rotation returns without regard to it. -/
theorem C12_rotation_trigger (envB envS : Nat → WriteOutcome) (RD data : List Byte)
    (b : binarylog.binaryLogger) (s : eventstorage.EventStorage) :
    (((∃ b1, (binarylog.logStage envB RD data b).1 = .rotating b1) ↔
        (b.logFileMaxSize ≤
            ((b.logFileSize + (binarylog.logStage envB RD data b).2 : Nat) : Int) ∧
          envB b.writeCalls = .ok)) ∧
      (∀ b1, (binarylog.logStage envB RD data b).1 = .rotating b1 →
        b1.buf = [] ∧ b1.insertsCount = 0 ∧
        b1.logFile = b.logFile ++
          (binarylog.insertData RD (binarylog.insertData data b).1).1.buf ∧
        ∀ rot, binarylog.Log envB rot RD data b
          = ((rot b1).1, (binarylog.logStage envB RD data b).2, (rot b1).2)) ∧
      (∀ b1 e, (binarylog.logStage envB RD data b).1 = .finished b1 e →
        ∀ rot, binarylog.Log envB rot RD data b
          = (b1, (binarylog.logStage envB RD data b).2, e))) ∧
    (((∃ s1, (eventstorage.writeStage envS data s).1 = .rotating s1) ↔
        (s.fileMaxSize ≤
            ((s.fileSize + (eventstorage.writeStage envS data s).2 : Nat) : Int) ∧
          envS s.writeCalls = .ok)) ∧
      (∀ s1, (eventstorage.writeStage envS data s).1 = .rotating s1 →
        s1.buf = [] ∧ s1.insertsCount = 0 ∧
        s1.file = s.file ++ (s.buf ++ data ++ [eventstorage.LineBreak]) ∧
        ∀ rot, eventstorage.Write envS rot data s
          = ((rot s1).1, (eventstorage.writeStage envS data s).2, (rot s1).2)) ∧
      (∀ s1 e, (eventstorage.writeStage envS data s).1 = .finished s1 e →
        ∀ rot, eventstorage.Write envS rot data s
          = (s1, (eventstorage.writeStage envS data s).2, e))) := by
  refine ⟨⟨?_, ?_, ?_⟩, ⟨?_, ?_, ?_⟩⟩
  · rw [binarylog.logStage_eq]
    push_cast
    by_cases hbig : b.logFileMaxSize ≤ (b.logFileSize : Int) +
        (((binarylog.insertData data b).2 : Int) +
          ((binarylog.insertData RD (binarylog.insertData data b).1).2 : Int))
    · cases henv : envB b.writeCalls with
      | ok => simp [hbig]
      | fail n => simp [hbig]
    · cases henv : envB b.writeCalls with
      | ok => by_cases ht : b.autoFlushCount > 0 ∧ (b.insertsCount : Int) + 1 ≥ b.autoFlushCount
                <;> simp [hbig, ht]
      | fail n => by_cases ht : b.autoFlushCount > 0 ∧ (b.insertsCount : Int) + 1 ≥ b.autoFlushCount
                <;> simp [hbig, ht]
  · intro b1 h
    refine ⟨?_, ?_, ?_, binarylog.Log_of_rotating envB RD data b b1 h⟩
    all_goals
      rw [binarylog.logStage_eq] at h
      simp only at h
      split_ifs at h
      all_goals
        cases henv : envB b.writeCalls <;> rw [henv] at h <;> simp only [reduceCtorEq] at h
      all_goals
        injection h with h
        subst h
        simp [binarylog.insertData_eq]
  · intro b1 e h
    exact binarylog.Log_of_finished envB RD data b b1 e h
  · rw [eventstorage.writeStage_eq]
    push_cast
    by_cases hbig : s.fileMaxSize ≤ (s.fileSize : Int) + ((data.length : Int) + 1)
    · cases henv : envS s.writeCalls with
      | ok => simp [hbig]
      | fail n => simp [hbig]
    · cases henv : envS s.writeCalls with
      | ok => by_cases ht : s.autoFlushCount > 0 ∧ (s.insertsCount : Int) + 1 ≥ s.autoFlushCount
                <;> simp [hbig, ht]
      | fail n => by_cases ht : s.autoFlushCount > 0 ∧ (s.insertsCount : Int) + 1 ≥ s.autoFlushCount
                <;> simp [hbig, ht]
  · intro s1 h
    refine ⟨?_, ?_, ?_, eventstorage.Write_of_rotating envS data s s1 h⟩
    all_goals
      rw [eventstorage.writeStage_eq] at h
      simp only at h
      split_ifs at h
      all_goals
        cases henv : envS s.writeCalls <;> rw [henv] at h <;> simp only [reduceCtorEq] at h
      all_goals
        injection h with h
        subst h
        simp
  · intro s1 e h
    exact eventstorage.Write_of_finished envS data s s1 e h

/-- C12, at fresh stores whose maximum segment size the first record reaches. -/
theorem C12_rotation_trigger_witness :
    (∃ b1, (binarylog.logStage (fun _ => .ok) [13] [97]
        { binarylog.New [] with logFileMaxSize := 5 }).1 = .rotating b1) ∧
    (∃ s1, (eventstorage.writeStage (fun _ => .ok) [97]
        { eventstorage.New [] [] with fileMaxSize := 2 }).1 = .rotating s1) :=
  ⟨(C12_rotation_trigger (fun _ => .ok) (fun _ => .ok) [13] [97]
      { binarylog.New [] with logFileMaxSize := 5 }
      { eventstorage.New [] [] with fileMaxSize := 2 }).1.1.mpr ⟨by decide, rfl⟩,
   (C12_rotation_trigger (fun _ => .ok) (fun _ => .ok) [13] [97]
      { binarylog.New [] with logFileMaxSize := 5 }
      { eventstorage.New [] [] with fileMaxSize := 2 }).2.1.mpr ⟨by decide, rfl⟩⟩

/-- C11. Logical size accounting, in both stores: let the logical size equal the length of
the active segment plus the length of the write buffer, and let the next file write either
succeed or fail without writing.  Then the equality holds again after every `Log`/`Write`
call that returns without reaching the rotation, and after every `Flush`; such a
`Log`/`Write` call adds to the logical size exactly the number of bytes it appended to the
buffer, which is the value it returns, and `Flush` leaves the logical size as it was. -/
theorem C11_logical_size (envB envS : Nat → WriteOutcome) (RD data : List Byte)
    (b : binarylog.binaryLogger) (s : eventstorage.EventStorage)
    (hb : b.logFileSize = b.logFile.length + b.buf.length)
    (hs : s.fileSize = s.file.length + s.buf.length)
    (hbw : envB b.writeCalls = .ok ∨ envB b.writeCalls = .fail 0)
    (hsw : envS s.writeCalls = .ok ∨ envS s.writeCalls = .fail 0) :
    ((∀ b1 e, (binarylog.logStage envB RD data b).1 = .finished b1 e →
        (∀ rot, binarylog.Log envB rot RD data b
          = (b1, (binarylog.logStage envB RD data b).2, e)) ∧
        b1.logFileSize = b1.logFile.length + b1.buf.length ∧
        b1.logFileSize = b.logFileSize + (binarylog.logStage envB RD data b).2 ∧
        (binarylog.insertData RD (binarylog.insertData data b).1).1.buf.length
          = b.buf.length + (binarylog.logStage envB RD data b).2) ∧
      (binarylog.Flush envB b).1.logFileSize
        = (binarylog.Flush envB b).1.logFile.length + (binarylog.Flush envB b).1.buf.length ∧
      (binarylog.Flush envB b).1.logFileSize = b.logFileSize) ∧
    ((∀ s1 e, (eventstorage.writeStage envS data s).1 = .finished s1 e →
        (∀ rot, eventstorage.Write envS rot data s
          = (s1, (eventstorage.writeStage envS data s).2, e)) ∧
        s1.fileSize = s1.file.length + s1.buf.length ∧
        s1.fileSize = s.fileSize + (eventstorage.writeStage envS data s).2 ∧
        (s.buf ++ data ++ [eventstorage.LineBreak]).length
          = s.buf.length + (eventstorage.writeStage envS data s).2) ∧
      (eventstorage.Flush envS s).1.fileSize
        = (eventstorage.Flush envS s).1.file.length + (eventstorage.Flush envS s).1.buf.length ∧
      (eventstorage.Flush envS s).1.fileSize = s.fileSize) := by
  refine ⟨⟨?_, ?_, ?_⟩, ⟨?_, ?_, ?_⟩⟩
  · intro b1 e h
    refine ⟨binarylog.Log_of_finished envB RD data b b1 e h, ?_⟩
    have h2 := h
    rw [binarylog.logStage_eq] at h2 ⊢
    simp only at h2 ⊢
    rcases hbw with hw | hw
    all_goals
      rw [hw] at h2
      simp only at h2
      split_ifs at h2
      all_goals
        injection h2 with h2 h3
        subst h2
        simp [binarylog.insertData_eq, hb, fileAppend]
        try omega
  · rcases hbw with hw | hw <;>
      by_cases h0 : b.insertsCount > 0 <;>
      simp [binarylog.Flush, binarylog.flush, hw, h0, hb, fileAppend]
  · rcases hbw with hw | hw <;>
      by_cases h0 : b.insertsCount > 0 <;>
      simp [binarylog.Flush, binarylog.flush, hw, h0, hb, fileAppend]
  · intro s1 e h
    refine ⟨eventstorage.Write_of_finished envS data s s1 e h, ?_⟩
    have h2 := h
    rw [eventstorage.writeStage_eq] at h2 ⊢
    simp only at h2 ⊢
    rcases hsw with hw | hw
    all_goals
      rw [hw] at h2
      simp only at h2
      split_ifs at h2
      all_goals
        injection h2 with h2 h3
        subst h2
        simp [hs, fileAppend]
        try omega
  · rcases hsw with hw | hw <;>
      by_cases h0 : s.insertsCount > 0 <;>
      simp [eventstorage.Flush, eventstorage.flush, hw, h0, hs, fileAppend]
  · rcases hsw with hw | hw <;>
      by_cases h0 : s.insertsCount > 0 <;>
      simp [eventstorage.Flush, eventstorage.flush, hw, h0, hs, fileAppend]

/-- C11, at stores holding one buffered record of two bytes whose flush succeeds. -/
theorem C11_logical_size_witness :
    (binarylog.Flush (fun _ => .ok)
        { binarylog.New [] with buf := [54, 49], insertsCount := 1, logFileSize := 2 }).1.logFileSize
      = 2 ∧
    (eventstorage.Flush (fun _ => .ok)
        { eventstorage.New [] [] with buf := [97, 10], insertsCount := 1, fileSize := 2 }).1.fileSize
      = 2 :=
  ⟨(C11_logical_size (fun _ => .ok) (fun _ => .ok) [13] [97]
      { binarylog.New [] with buf := [54, 49], insertsCount := 1, logFileSize := 2 }
      { eventstorage.New [] [] with buf := [97, 10], insertsCount := 1, fileSize := 2 }
      (by decide) (by decide) (Or.inl rfl) (Or.inl rfl)).1.2.2,
   (C11_logical_size (fun _ => .ok) (fun _ => .ok) [13] [97]
      { binarylog.New [] with buf := [54, 49], insertsCount := 1, logFileSize := 2 }
      { eventstorage.New [] [] with buf := [97, 10], insertsCount := 1, fileSize := 2 }
      (by decide) (by decide) (Or.inl rfl) (Or.inl rfl)).2.2.2⟩

/-- C19. No stranded bytes, in both stores: the invariant "a non-empty write buffer has a
positive pending insert count" holds in the store `New` returns, holds after every
`Log`/`Write` (the rotation, where it is reached, being any function that leaves an empty
write buffer empty) and is kept by every `Flush`, failed or not; and under the invariant a
`Flush` that returns no error leaves the write buffer empty, the active segment holding its
previous content followed by the previous buffer, after at most one file write. -/
theorem C19_no_stranded_bytes (envB envS : Nat → WriteOutcome)
    (rotB : binarylog.binaryLogger → binarylog.binaryLogger × Option StoreError)
    (rotS : eventstorage.EventStorage → eventstorage.EventStorage × Option StoreError)
    (RD data : List Byte) (b : binarylog.binaryLogger) (s : eventstorage.EventStorage)
    (logFile : List Byte) (sealed : List (List Byte)) (file : List Byte)
    (hrotB : ∀ x, x.buf = [] → (rotB x).1.buf = [])
    (hrotS : ∀ x, x.buf = [] → (rotS x).1.buf = [])
    (hb : b.buf ≠ [] → b.insertsCount > 0)
    (hs : s.buf ≠ [] → s.insertsCount > 0) :
    (((binarylog.New logFile).buf ≠ [] → (binarylog.New logFile).insertsCount > 0) ∧
      ((binarylog.Log envB rotB RD data b).1.buf ≠ [] →
        (binarylog.Log envB rotB RD data b).1.insertsCount > 0) ∧
      ((binarylog.Flush envB b).1.buf ≠ [] → (binarylog.Flush envB b).1.insertsCount > 0) ∧
      ((binarylog.Flush envB b).2.2 = none →
        (binarylog.Flush envB b).1.buf = [] ∧
        (binarylog.Flush envB b).1.logFile = b.logFile ++ b.buf ∧
        (binarylog.Flush envB b).1.writeCalls ≤ b.writeCalls + 1)) ∧
    (((eventstorage.New sealed file).buf ≠ [] →
        (eventstorage.New sealed file).insertsCount > 0) ∧
      ((eventstorage.Write envS rotS data s).1.buf ≠ [] →
        (eventstorage.Write envS rotS data s).1.insertsCount > 0) ∧
      ((eventstorage.Flush envS s).1.buf ≠ [] → (eventstorage.Flush envS s).1.insertsCount > 0) ∧
      ((eventstorage.Flush envS s).2.2 = none →
        (eventstorage.Flush envS s).1.buf = [] ∧
        (eventstorage.Flush envS s).1.file = s.file ++ s.buf ∧
        (eventstorage.Flush envS s).1.writeCalls ≤ s.writeCalls + 1)) := by
  refine ⟨⟨?_, ?_, ?_, ?_⟩, ⟨?_, ?_, ?_, ?_⟩⟩
  · intro h
    exact absurd rfl h
  · cases hst : (binarylog.logStage envB RD data b).1 with
    | finished b1 e =>
      rw [binarylog.Log_of_finished envB RD data b b1 e hst]
      rw [binarylog.logStage_eq] at hst
      simp only at hst
      split_ifs at hst
      all_goals
        try (cases henv : envB b.writeCalls <;> rw [henv] at hst <;> simp only at hst)
      all_goals
        first
        | (injection hst with h1 h2; subst h1; simp)
        | cases hst
    | rotating b1 =>
      rw [binarylog.Log_of_rotating envB RD data b b1 hst]
      have hempty : b1.buf = [] := by
        rw [binarylog.logStage_eq] at hst
        simp only at hst
        split_ifs at hst
        all_goals
          cases henv : envB b.writeCalls <;> rw [henv] at hst <;> simp only [reduceCtorEq] at hst
        all_goals
          injection hst with h1
          subst h1
          rfl
      intro h
      exact absurd (hrotB b1 hempty) h
  · by_cases h0 : b.insertsCount > 0
    · cases henv : envB b.writeCalls <;> simp [binarylog.Flush, binarylog.flush, h0, henv]
    · have hz : b.buf = [] := by
        by_contra hne
        exact h0 (hb hne)
      simp [binarylog.Flush, binarylog.flush, h0, hz]
  · intro herr
    by_cases h0 : b.insertsCount > 0
    · cases henv : envB b.writeCalls with
      | ok => simp [binarylog.Flush, binarylog.flush, h0, henv, fileAppend]
      | fail n => simp [binarylog.Flush, binarylog.flush, h0, henv] at herr
    · have hz : b.buf = [] := by
        by_contra hne
        exact h0 (hb hne)
      simp [binarylog.Flush, binarylog.flush, h0, hz]
  · intro h
    exact absurd rfl h
  · cases hst : (eventstorage.writeStage envS data s).1 with
    | finished s1 e =>
      rw [eventstorage.Write_of_finished envS data s s1 e hst]
      rw [eventstorage.writeStage_eq] at hst
      simp only at hst
      split_ifs at hst
      all_goals
        try (cases henv : envS s.writeCalls <;> rw [henv] at hst <;> simp only at hst)
      all_goals
        first
        | (injection hst with h1 h2; subst h1; simp)
        | cases hst
    | rotating s1 =>
      rw [eventstorage.Write_of_rotating envS data s s1 hst]
      have hempty : s1.buf = [] := by
        rw [eventstorage.writeStage_eq] at hst
        simp only at hst
        split_ifs at hst
        all_goals
          cases henv : envS s.writeCalls <;> rw [henv] at hst <;> simp only [reduceCtorEq] at hst
        all_goals
          injection hst with h1
          subst h1
          rfl
      intro h
      exact absurd (hrotS s1 hempty) h
  · by_cases h0 : s.insertsCount > 0
    · cases henv : envS s.writeCalls <;> simp [eventstorage.Flush, eventstorage.flush, h0, henv]
    · have hz : s.buf = [] := by
        by_contra hne
        exact h0 (hs hne)
      simp [eventstorage.Flush, eventstorage.flush, h0, hz]
  · intro herr
    by_cases h0 : s.insertsCount > 0
    · cases henv : envS s.writeCalls with
      | ok => simp [eventstorage.Flush, eventstorage.flush, h0, henv, fileAppend]
      | fail n => simp [eventstorage.Flush, eventstorage.flush, h0, henv] at herr
    · have hz : s.buf = [] := by
        by_contra hne
        exact h0 (hs hne)
      simp [eventstorage.Flush, eventstorage.flush, h0, hz]

/-- C19, at stores holding one buffered record, with a rotation that changes nothing. -/
theorem C19_no_stranded_bytes_witness :
    (binarylog.Flush (fun _ => .ok)
        { binarylog.New [] with buf := [54, 49], insertsCount := 1 }).1.buf = [] ∧
    (eventstorage.Flush (fun _ => .ok)
        { eventstorage.New [] [] with buf := [97, 10], insertsCount := 1 }).1.file = [97, 10] :=
  ⟨((C19_no_stranded_bytes (fun _ => .ok) (fun _ => .ok) (fun x => (x, none))
      (fun x => (x, none)) [13] [97]
      { binarylog.New [] with buf := [54, 49], insertsCount := 1 }
      { eventstorage.New [] [] with buf := [97, 10], insertsCount := 1 } [] [] []
      (fun _ h => h) (fun _ h => h) (by decide) (by decide)).1.2.2.2 (by decide)).1,
   ((C19_no_stranded_bytes (fun _ => .ok) (fun _ => .ok) (fun x => (x, none))
      (fun x => (x, none)) [13] [97]
      { binarylog.New [] with buf := [54, 49], insertsCount := 1 }
      { eventstorage.New [] [] with buf := [97, 10], insertsCount := 1 } [] [] []
      (fun _ h => h) (fun _ h => h) (by decide) (by decide)).2.2.2.2 (by decide)).2.1⟩

/-! ## Proofs: the flush interval, and the encoder over concatenation -/

/-- C13 as stated fails for the binary log: after a successful `SetAutoFlushTime(5)`, the
call `SetAutoFlushTime(0)` fails with `ErrAutoFlushTimeAlreadySet`, not with
`ErrAutoFlushTimeTooLow`. -/
theorem C13_counterexample :
    (binarylog.SetAutoFlushTime 5 (binarylog.New [])).2 = none ∧
    (binarylog.SetAutoFlushTime 0 (binarylog.SetAutoFlushTime 5 (binarylog.New [])).1).2
      = some .ErrAutoFlushTimeAlreadySet ∧
    (binarylog.SetAutoFlushTime 0 (binarylog.SetAutoFlushTime 5 (binarylog.New [])).1).2
      ≠ some .ErrAutoFlushTimeTooLow := by
  decide

/-- C13, amended. In the event store `SetAutoFlushTime d` fails with
`ErrAutoFlushTimeTooLow` whenever `d ≤ 0`, fails with `ErrAutoFlushTimeAlreadySet` whenever
`d > 0` and an interval is stored, and stores `d` otherwise.  In the binary log it fails
with `ErrAutoFlushTimeAlreadySet` whenever an interval is stored, whatever `d` is, fails
with `ErrAutoFlushTimeTooLow` whenever none is stored and `d ≤ 0`, and stores `d`
otherwise.  In both stores a failing call leaves the whole state, the stored interval
included, unchanged. -/
theorem C13_set_auto_flush_time (d : Int) (b : binarylog.binaryLogger)
    (s : eventstorage.EventStorage) :
    ((d ≤ 0 → eventstorage.SetAutoFlushTime d s = (s, some .ErrAutoFlushTimeTooLow)) ∧
      (d > 0 → s.autoFlushTime ≠ 0 →
        eventstorage.SetAutoFlushTime d s = (s, some .ErrAutoFlushTimeAlreadySet)) ∧
      (d > 0 → s.autoFlushTime = 0 →
        eventstorage.SetAutoFlushTime d s = ({ s with autoFlushTime := d }, none))) ∧
    ((b.autoFlushTime ≠ 0 →
        binarylog.SetAutoFlushTime d b = (b, some .ErrAutoFlushTimeAlreadySet)) ∧
      (b.autoFlushTime = 0 → d ≤ 0 →
        binarylog.SetAutoFlushTime d b = (b, some .ErrAutoFlushTimeTooLow)) ∧
      (b.autoFlushTime = 0 → d > 0 →
        binarylog.SetAutoFlushTime d b = ({ b with autoFlushTime := d }, none))) := by
  refine ⟨⟨?_, ?_, ?_⟩, ⟨?_, ?_, ?_⟩⟩
  · intro hd
    simp [eventstorage.SetAutoFlushTime, hd]
  · intro hd hset
    have : ¬ d ≤ 0 := by omega
    simp [eventstorage.SetAutoFlushTime, this, hset]
  · intro hd hset
    have : ¬ d ≤ 0 := by omega
    simp [eventstorage.SetAutoFlushTime, this, hset]
  · intro hset
    simp [binarylog.SetAutoFlushTime, hset]
  · intro hset hd
    simp [binarylog.SetAutoFlushTime, hset, hd]
  · intro hset hd
    have : ¬ d ≤ 0 := by omega
    simp [binarylog.SetAutoFlushTime, hset, this]

/-- C13 amended, at fresh stores and the interval 5. -/
theorem C13_set_auto_flush_time_witness :
    eventstorage.SetAutoFlushTime 5 (eventstorage.New [] [])
      = ({ eventstorage.New [] [] with autoFlushTime := 5 }, none) ∧
    binarylog.SetAutoFlushTime 5 (binarylog.New [])
      = ({ binarylog.New [] with autoFlushTime := 5 }, none) :=
  ⟨(C13_set_auto_flush_time 5 (binarylog.New []) (eventstorage.New [] [])).1.2.2
      (by decide) rfl,
   (C13_set_auto_flush_time 5 (binarylog.New []) (eventstorage.New [] [])).2.2.2
      rfl (by decide)⟩

namespace binarylog

theorem encText_length (c : Nat) (d : List Byte) (hc : c < 16) :
    (encText c d).length = 2 * d.length + (c + d.length) / 2 - c / 2 := by
  induction d generalizing c with
  | nil => simp [encText]
  | cons v rest ih =>
    have hn : nextCount c < 16 := by unfold nextCount; split <;> omega
    have ih' := ih (nextCount c) hn
    simp only [encText, List.length_append, hex.Encode, List.length_cons, List.length_nil, ih']
    by_cases h16 : c + 1 ≥ 16
    · have hc15 : c = 15 := by omega
      subst hc15
      simp [nextCount, sepAfter]
      omega
    · have hnc : nextCount c = c + 1 := by simp [nextCount, h16]
      rw [hnc, length_sepAfter c (by omega)]
      split <;> omega

/-- C14. The hex encoder is a homomorphism over concatenation: from every logger state,
`insertData a` followed by `insertData c` leaves the same logger (same buffer, same row
state) as `insertData (a ++ c)`, and the two returned lengths sum to the length the single
call returns.  Hence `Log d` appends exactly the encoding of `d ++ RowDelimiter`, the
delimiter taking row positions like data:
* `Log d` with the delimiter `RowDelimiter` is `Log (d ++ RowDelimiter)` with an empty
  delimiter, and it returns the length `insertData (d ++ RowDelimiter)` returns;
* when neither the count trigger nor the size trigger fires, `Log d` returns the logger
  `insertData (d ++ RowDelimiter)` leaves, with the size and the insert count advanced;
* in every case the logger that `Log` returns or hands to the rotation has the row state
  `insertData (d ++ RowDelimiter)` leaves; when the file write of the call succeeds its
  segment followed by its buffer is the old segment followed by the buffer
  `insertData (d ++ RowDelimiter)` leaves, and when that write fails its buffer is that
  buffer;
* that buffer is the old buffer followed by a text that `Decode` turns back into
  `d ++ RowDelimiter`. -/
theorem C14_insertData_append (a c : List Byte) (b : binaryLogger)
    (env : Nat → WriteOutcome) (rot : binaryLogger → binaryLogger × Option StoreError)
    (RowDelimiter d : List Byte) :
    (insertData c (insertData a b).1).1 = (insertData (a ++ c) b).1 ∧
    (insertData a b).2 + (insertData c (insertData a b).1).2 = (insertData (a ++ c) b).2 ∧
    Log env rot RowDelimiter d b = Log env rot [] (d ++ RowDelimiter) b ∧
    (Log env rot RowDelimiter d b).2.1 = (insertData (d ++ RowDelimiter) b).2 ∧
    (¬ (b.autoFlushCount > 0 ∧ (b.insertsCount : Int) + 1 ≥ b.autoFlushCount) →
      (b.logFileSize : Int) + ((insertData (d ++ RowDelimiter) b).2 : Int)
        < b.logFileMaxSize →
      Log env rot RowDelimiter d b =
        ({ (insertData (d ++ RowDelimiter) b).1 with
            logFileSize := b.logFileSize + (insertData (d ++ RowDelimiter) b).2,
            insertsCount := b.insertsCount + 1 },
          (insertData (d ++ RowDelimiter) b).2, none)) ∧
    (∀ b1, ((∃ e, (logStage env RowDelimiter d b).1 = .finished b1 e) ∨
        (logStage env RowDelimiter d b).1 = .rotating b1) →
      b1.lastLineBytesCount = (insertData (d ++ RowDelimiter) b).1.lastLineBytesCount ∧
      (env b.writeCalls = .ok →
        b1.logFile ++ b1.buf = b.logFile ++ (insertData (d ++ RowDelimiter) b).1.buf) ∧
      (∀ n, env b.writeCalls = .fail n →
        b1.buf = (insertData (d ++ RowDelimiter) b).1.buf)) ∧
    (insertData (d ++ RowDelimiter) b).1.buf
      = b.buf ++ ((insertData (d ++ RowDelimiter) b).1.buf).drop b.buf.length ∧
    Decode (((insertData (d ++ RowDelimiter) b).1.buf).drop b.buf.length)
      = (d ++ RowDelimiter, none) := by
  refine ⟨?_, ?_, ?_, ?_, ?_, ?_, ?_, ?_⟩
  · simp [insertData_eq, encText_append, encCount_append]
  · simp [insertData_eq, encText_append]
  · simp [Log, insertData_eq, encText_append, encCount_append, encText, encCount]
  · cases hst : (logStage env RowDelimiter d b).1 with
    | finished b1 e =>
      rw [Log_of_finished env RowDelimiter d b b1 e hst, logStage_eq]
      simp [insertData_eq, encText_append]
    | rotating b1 =>
      rw [Log_of_rotating env RowDelimiter d b b1 hst, logStage_eq]
      simp [insertData_eq, encText_append]
  · intro htrig hsmall
    have hst : (logStage env RowDelimiter d b).1 =
        .finished { (insertData (d ++ RowDelimiter) b).1 with
            logFileSize := b.logFileSize + (insertData (d ++ RowDelimiter) b).2,
            insertsCount := b.insertsCount + 1 } none := by
      rw [logStage_eq]
      simp only [insertData_eq, encText_append, encCount_append, List.length_append] at hsmall ⊢
      have hbig : ¬ (b.logFileMaxSize ≤ (b.logFileSize : Int) +
          (((encText b.lastLineBytesCount d).length : Int) +
            ((encText (encCount b.lastLineBytesCount d) RowDelimiter).length : Int))) := by
        push_cast at hsmall
        omega
      simp [htrig, hbig]
    rw [Log_of_finished env RowDelimiter d b _ _ hst, logStage_eq]
    simp [insertData_eq, encText_append]
  · intro b1 hb1
    have hcases : ∀ st, (logStage env RowDelimiter d b).1 = st →
        (st = .finished b1 none ∨ st = .finished b1 (some .flushFailed) ∨ st = .rotating b1) →
        b1.lastLineBytesCount = (insertData (d ++ RowDelimiter) b).1.lastLineBytesCount ∧
        (env b.writeCalls = .ok →
          b1.logFile ++ b1.buf = b.logFile ++ (insertData (d ++ RowDelimiter) b).1.buf) ∧
        (∀ n, env b.writeCalls = .fail n →
          b1.buf = (insertData (d ++ RowDelimiter) b).1.buf) := by
      intro st hst hform
      rw [logStage_eq] at hst
      simp only at hst
      split_ifs at hst
      all_goals
        try (cases henv : env b.writeCalls <;> rw [henv] at hst <;> simp only at hst)
      all_goals
        subst hst
        rcases hform with h | h | h
        all_goals
          cases h <;> simp [insertData_eq, encText_append, encCount_append, fileAppend]
    rcases hb1 with ⟨e, he⟩ | hr
    · cases e with
      | none => exact hcases _ he (Or.inl rfl)
      | some err =>
        cases err with
        | flushFailed => exact hcases _ he (Or.inr (Or.inl rfl))
        | rotateFailed =>
          exfalso
          rw [logStage_eq] at he
          simp only at he
          split_ifs at he
          all_goals
            try (cases henv : env b.writeCalls <;> rw [henv] at he <;> simp only at he)
          all_goals
            cases he
    · exact hcases _ hr (Or.inr (Or.inr rfl))
  · simp [insertData_eq]
  · simp [insertData_eq, Decode_encText]

/-- C14, at the record `a` with the delimiter `0x0d` logged to a fresh logger: the buffer
holds `610d` and the space that closes the group. -/
theorem C14_insertData_append_witness :
    Log (fun _ => .ok) (fun x => (x, none)) [13] [97] (New [])
      = ({ New [] with buf := [54, 49, 48, 100, 32], lastLineBytesCount := 2,
                       logFileSize := 5, insertsCount := 1 }, 5, none) :=
  ((C14_insertData_append [] [] (New []) (fun _ => .ok) (fun x => (x, none)) [13]
    [97]).2.2.2.2.1 (by decide) (by decide)).trans (by decide)

/-- C16. Encoded length and row state: for `n` bytes from a row state `c` in 0..15,
`insertData` returns `2 n + (c + n) / 2 - c / 2`, appends exactly that many bytes to the
write buffer and leaves the row state `(c + n) mod 16`, which is again in 0..15. -/
theorem C16_encoded_length (d : List Byte) (b : binaryLogger)
    (hc : b.lastLineBytesCount ≤ 15) :
    (insertData d b).2
      = 2 * d.length + (b.lastLineBytesCount + d.length) / 2 - b.lastLineBytesCount / 2 ∧
    (∃ t, (insertData d b).1.buf = b.buf ++ t ∧ t.length = (insertData d b).2) ∧
    (insertData d b).1.lastLineBytesCount = (b.lastLineBytesCount + d.length) % 16 ∧
    (insertData d b).1.lastLineBytesCount ≤ 15 := by
  have hc' : b.lastLineBytesCount < 16 := by omega
  have hlen := encText_length b.lastLineBytesCount d hc'
  have hcnt := encCount_eq b.lastLineBytesCount d hc'
  refine ⟨?_, ⟨encText b.lastLineBytesCount d, ?_, ?_⟩, ?_, ?_⟩
  · simp [insertData_eq, hlen]
  · simp [insertData_eq]
  · simp [insertData_eq]
  · simp [insertData_eq, hcnt]
  · simp only [insertData_eq, hcnt]
    omega

/-- C16, at the three bytes `1, 255, 16` arriving in row state 14: 7 bytes are buffered,
two digits each and the newline that closes the row. -/
theorem C16_encoded_length_witness :
    (insertData [1, 255, 16] { New [] with lastLineBytesCount := 14 }).2 = 7 ∧
    (insertData [1, 255, 16] { New [] with lastLineBytesCount := 14 }).1.lastLineBytesCount
      = 1 := by
  have h := C16_encoded_length [1, 255, 16] { New [] with lastLineBytesCount := 14 }
    (by decide)
  exact ⟨h.1, h.2.2.1⟩

end binarylog

/-! ## Proofs: the chunked scan against the reference read -/

namespace eventstorage

theorem ReadTo_eq_result (L : Nat) (files : List ReadableFile) (count offset : Int)
    (events : List (List Byte)) (fuel : Nat) :
    ReadTo L files count offset events fuel
      = (readFiles L count offset fuel files ⟨0, 0, [], events⟩).map Flow.result := by
  unfold ReadTo
  cases h : readFiles L count offset fuel files ⟨0, 0, [], events⟩ with
  | none => rfl
  | some f => cases f <;> rfl

/-- Every text is a list of records, each followed by `LineBreak`, and an unterminated
rest. -/
theorem exists_records (text : List Byte) :
    ∃ (rs : List (List Byte)) (tail : List Byte),
      (∀ r ∈ rs, LineBreak ∉ r) ∧ LineBreak ∉ tail ∧ text = recordsBytes rs ++ tail := by
  induction text with
  | nil => exact ⟨[], [], by simp, by simp, by simp [recordsBytes]⟩
  | cons v rest ih =>
    obtain ⟨rs, tail, hrs, htail, htext⟩ := ih
    by_cases hv : v = LineBreak
    · refine ⟨[] :: rs, tail, ?_, htail, ?_⟩
      · intro r hr
        rcases List.mem_cons.mp hr with h | h
        · simp [h]
        · exact hrs r h
      · simp [recordsBytes_cons, htext, hv]
    · cases rs with
      | nil =>
        refine ⟨[], v :: tail, by simp, ?_, ?_⟩
        · intro hmem
          rcases List.mem_cons.mp hmem with h | h
          · exact hv h.symm
          · exact htail h
        · simpa [recordsBytes] using htext
      | cons r0 rs' =>
        refine ⟨(v :: r0) :: rs', tail, ?_, htail, ?_⟩
        · intro r hr
          rcases List.mem_cons.mp hr with h | h
          · rw [h]
            intro hmem
            rcases List.mem_cons.mp hmem with h2 | h2
            · exact hv h2.symm
            · exact hrs r0 (by simp) h2
          · exact hrs r (by simp [h])
        · simp [recordsBytes_cons, htext]

theorem completeRecords_eq (rs : List (List Byte)) (tail : List Byte)
    (hrs : ∀ r ∈ rs, LineBreak ∉ r) (htail : LineBreak ∉ tail) :
    completeRecords (recordsBytes rs ++ tail) = rs := by
  have h : (recordsBytes rs ++ tail).splitOn LineBreak = rs ++ [tail] := by
    unfold recordsBytes
    rw [← binarylog.intercalate_concat]
    apply List.splitOn_intercalate
    · intro l hl
      rcases List.mem_append.mp hl with hl | hl
      · exact hrs l hl
      · simp only [List.mem_singleton] at hl
        rw [hl]
        exact htail
    · simp
  simp [completeRecords, h]

/-- A record of the page is stored in the next free slot of any output slice. -/
theorem scanChunk_take_one_gen (c o : Nat) (rec rest : List Byte) (e : Nat)
    (pre post : List (List Byte)) (hrec : LineBreak ∉ rec) (he : o ≤ e)
    (hpost : post ≠ []) :
    scanChunk c o (rec ++ [LineBreak] ++ rest) ⟨e, pre.length, [], pre ++ post⟩
      = if pre.length + 1 = c
        then .returned ⟨e + 1, pre.length + 1, [], pre ++ [rec] ++ post.tail⟩
        else scanChunk c o rest ⟨e + 1, pre.length + 1, [], pre ++ [rec] ++ post.tail⟩ := by
  have h2 : ¬ ((e : Int) + 1 ≤ o) := by
    intro hh
    have : e + 1 ≤ o := by exact_mod_cast hh
    omega
  obtain ⟨p0, ptl, rfl⟩ := List.exists_cons_of_ne_nil hpost
  have hset : (pre ++ p0 :: ptl).set pre.length rec = pre ++ [rec] ++ ptl := by
    simp [List.set_append]
  have hc : ((pre.length : Int) + 1 = c) ↔ pre.length + 1 = c := by
    constructor
    · intro hh; exact_mod_cast hh
    · intro hh; exact_mod_cast hh
  rw [List.append_assoc, scanChunk_append, scanChunk_payload c o rec _ hrec]
  simp only [he, if_true, Flow.andThen, List.nil_append, List.singleton_append, scanChunk,
    scanByte, Nat.cast_add, Nat.cast_one, h2, if_false, List.length_append,
    List.length_cons, hset, List.tail_cons]
  have hlt : pre.length < pre.length + (ptl.length + 1) := by omega
  simp only [hlt, if_true, hc]
  by_cases hcc : pre.length + 1 = c <;> simp [hcc]

/-- The records of the page fill the free slots of any output slice in order, and the scan
does not panic while a free slot below `count` is left. -/
theorem scanChunk_collect_gen (c o : Nat) (rs : List (List Byte)) (tail : List Byte)
    (e : Nat) (pre post : List (List Byte)) (hrs : ∀ x ∈ rs, LineBreak ∉ x)
    (htail : LineBreak ∉ tail) (he : o ≤ e) (hk : pre.length < c)
    (hlen : c ≤ pre.length + post.length) :
    (scanChunk c o (recordsBytes rs ++ tail) ⟨e, pre.length, [], pre ++ post⟩).result
      = .ok (pre ++ rs.take (c - pre.length)
          ++ post.drop (min rs.length (c - pre.length))) := by
  induction rs generalizing e pre post with
  | nil =>
    rw [show recordsBytes [] ++ tail = tail by simp [recordsBytes],
      scanChunk_payload c o tail _ htail]
    simp [Flow.result]
    split <;> rfl
  | cons x tl ih =>
    have hpost : post ≠ [] := by
      intro h
      rw [h] at hlen
      simp at hlen
      omega
    have e1 : recordsBytes (x :: tl) ++ tail = x ++ [LineBreak] ++ (recordsBytes tl ++ tail) := by
      simp [recordsBytes_cons]
    rw [e1, scanChunk_take_one_gen c o x _ e pre post (hrs x (by simp)) he hpost]
    obtain ⟨p0, ptl, rfl⟩ := List.exists_cons_of_ne_nil hpost
    by_cases h1 : pre.length + 1 = c
    · have hk1 : c - pre.length = 1 := by omega
      simp [h1, Flow.result, hk1]
    · obtain ⟨k, hk2⟩ : ∃ k, c - pre.length = k + 2 := ⟨c - pre.length - 2, by omega⟩
      have := ih (e + 1) (pre ++ [x]) ptl (fun y hy => hrs y (by simp [hy])) (by omega)
        (by simp; omega) (by simp at hlen ⊢; omega)
      simp only [List.length_append, List.length_singleton] at this
      have hk3 : c - (pre.length + 1) = k + 1 := by omega
      simp only [h1, if_false, List.tail_cons, this, hk2, hk3, List.length_cons,
        List.take_succ_cons, Nat.add_min_add_right, List.drop_succ_cons]
      simp


/-- The flat scan of any text is the reference read. -/
theorem scanChunk_reference (c o : Nat) (hc : 1 ≤ c) (text : List Byte)
    (events : List (List Byte)) (hev : c ≤ events.length) :
    (scanChunk c o text ⟨0, 0, [], events⟩).result = .ok (referenceRead text c o events) := by
  obtain ⟨rs, tail, hrs, htail, htext⟩ := exists_records text
  rw [htext]
  simp only [referenceRead, completeRecords_eq rs tail hrs htail]
  by_cases hon : o ≤ rs.length
  · have hsplit : recordsBytes rs ++ tail
        = recordsBytes (rs.take o) ++ (recordsBytes (rs.drop o) ++ tail) := by
      rw [← List.append_assoc, ← recordsBytes_append, List.take_append_drop]
    have hskip := scanChunk_skip c o (rs.take o) (recordsBytes (rs.drop o) ++ tail)
      ⟨0, 0, [], events⟩ (fun x hx => hrs x (List.mem_of_mem_take hx)) (by simp)
    have hcol := scanChunk_collect_gen c o (rs.drop o) tail o [] events
      (fun x hx => hrs x (List.mem_of_mem_drop hx)) htail (le_refl _) (by simpa using hc)
      (by simpa using hev)
    simp only [List.length_take, Nat.zero_add, Nat.min_eq_left hon] at hskip
    simp only [List.length_nil, List.nil_append, Nat.sub_zero] at hcol
    rw [hsplit, hskip, hcol]
    simp [Nat.min_comm]
  · have hskip := scanChunk_skip c o rs tail ⟨0, 0, [], events⟩ hrs (by simp; omega)
    have hd : List.drop o rs = [] := List.drop_eq_nil_of_le (by omega)
    rw [hskip, scanChunk_payload c o tail _ htail]
    simp only [hd, List.take_nil, List.length_nil, List.drop_zero, List.nil_append,
      Flow.result]
    split <;> rfl

/-- C15. The chunked multi-segment scan equals a flat scan: for segment files with contents
`segs`, read in ascending number through a buffer of `readBufLimit ≥ 1` bytes, for
`count ≥ 1`, any `offset ≥ 0` and an output slice of at least `count` slots, `ReadTo`
returns (with fuel above the largest segment size, and without panic) the output of the
reference read of the concatenation of the segments: the first `offset` complete records
dropped, the next `count` put in the first slots.  So any other buffer size and any other
cutting of the same bytes into segments give the same result. -/
theorem C15_chunked_scan_eq_flat (L : Nat) (hL : 1 ≤ L) (segs : List (List Byte))
    (count offset : Nat) (hc : 1 ≤ count) (events : List (List Byte))
    (hev : count ≤ events.length) (fuel : Nat) (hfuel : ∀ x ∈ segs, x.length < fuel) :
    ReadTo L (segs.map (regularFile L)) count offset events fuel
      = some (.ok (referenceRead segs.flatten count offset events)) ∧
    ∀ (L2 : Nat) (segs2 : List (List Byte)) (fuel2 : Nat), 1 ≤ L2 →
      segs2.flatten = segs.flatten → (∀ x ∈ segs2, x.length < fuel2) →
      ReadTo L2 (segs2.map (regularFile L2)) count offset events fuel2
        = ReadTo L (segs.map (regularFile L)) count offset events fuel := by
  have key : ∀ (L1 : Nat) (segs1 : List (List Byte)) (fuel1 : Nat), 1 ≤ L1 →
      (∀ x ∈ segs1, x.length < fuel1) →
      ReadTo L1 (segs1.map (regularFile L1)) count offset events fuel1
        = some (.ok (referenceRead segs1.flatten count offset events)) := by
    intro L1 segs1 fuel1 h1 hf
    rw [ReadTo_eq_result, readFiles_regular L1 h1 count offset segs1 fuel1 _ hf]
    simp only [Option.map_some']
    rw [scanChunk_reference count offset hc segs1.flatten events hev]
  refine ⟨key L segs fuel hL hfuel, ?_⟩
  intro L2 segs2 fuel2 h2 hflat hf2
  rw [key L2 segs2 fuel2 h2 hf2, key L segs fuel hL hfuel, hflat]

/-- C15, at the records `a`, `bb`, the empty record and `c` cut into three segments in the
middle of records, read through a buffer of 2 bytes: `ReadTo(2, 1, events)` stores `bb`
and the empty record. -/
theorem C15_chunked_scan_eq_flat_witness :
    ReadTo 2 ([[97, 10, 98], [98], [10, 10, 99, 10]].map (regularFile 2)) 2 1 [[1], [2]] 5
      = some (.ok [[98, 98], []]) :=
  ((C15_chunked_scan_eq_flat 2 (by decide) [[97, 10, 98], [98], [10, 10, 99, 10]]
    2 1 (by decide) [[1], [2]] (by decide) 5 (by decide)).1).trans (by decide)

end eventstorage

/-! ## Proofs: termination of the scan and the range of the output index -/

namespace eventstorage

theorem readFile_failingFile (L : Nat) (count offset : Int) (fuel off : Nat) (r : read) :
    readFile L count offset failingFile fuel off r = none := by
  induction fuel generalizing off with
  | zero => rfl
  | succ n ih =>
    simp only [readFile, failingFile, scanChunk, reduceCtorEq, or_self, if_false]
    exact ih (off + L)

/-- C17 fails at a segment whose reads keep failing with an error other than `io.EOF` and
"file already closed": the scan does not treat that failure as the end of the segment, it
reads the same file again and again, and no number of chunk reads lets `ReadTo` return,
whatever segments follow. -/
theorem C17_scan_never_returns (L : Nat) (rest : List ReadableFile) (count offset : Int)
    (events : List (List Byte)) (fuel : Nat) :
    ReadTo L (failingFile :: rest) count offset events fuel = none := by
  simp [ReadTo, readFiles, readFile_failingFile]

/-- A file that answers `io.EOF` or "file already closed" at some chunk boundary is left
after finitely many reads. -/
theorem readFile_ends (L : Nat) (count offset : Int) (file : ReadableFile) (j : Nat) :
    ∀ (fuel off : Nat) (r : read), j < fuel →
      ((file (off + j * L)).err = some .eof ∨ (file (off + j * L)).err = some .closed) →
      readFile L count offset file fuel off r ≠ none := by
  induction j with
  | zero =>
    intro fuel off r hfuel hend
    obtain ⟨n, rfl⟩ : ∃ n, fuel = n + 1 := ⟨fuel - 1, by omega⟩
    simp only [Nat.zero_mul, Nat.add_zero] at hend
    simp [readFile, hend]
  | succ k ih =>
    intro fuel off r hfuel hend
    obtain ⟨n, rfl⟩ : ∃ n, fuel = n + 1 := ⟨fuel - 1, by omega⟩
    simp only [readFile]
    split
    · simp
    · cases h : scanChunk count offset (file off).bytes r with
      | next r1 =>
        simp only []
        apply ih n (off + L) r1 (by omega)
        have e : off + L + k * L = off + (k + 1) * L := by ring
        rw [e]
        exact hend
      | returned r1 => simp
      | panicked => simp

/-- The scan returns after finitely many chunk reads when every file answers `io.EOF` or
"file already closed" at some chunk boundary: such an answer ends the scan of the file and
the scan moves on to the next file. -/
theorem ReadTo_terminates_of_ending (L : Nat) (files : List ReadableFile)
    (count offset : Int) (events : List (List Byte))
    (hend : ∀ f ∈ files, ∃ j, (f (j * L)).err = some .eof ∨ (f (j * L)).err = some .closed) :
    ∃ N, ∀ fuel, N ≤ fuel → ReadTo L files count offset events fuel ≠ none := by
  have key : ∀ (fs : List ReadableFile),
      (∀ f ∈ fs, ∃ j, (f (j * L)).err = some .eof ∨ (f (j * L)).err = some .closed) →
      ∃ N, ∀ fuel, N ≤ fuel → ∀ r, readFiles L count offset fuel fs r ≠ none := by
    intro fs
    induction fs with
    | nil => intro _; exact ⟨0, fun fuel _ r => by simp [readFiles]⟩
    | cons f tl ih =>
      intro h
      obtain ⟨N, hN⟩ := ih (fun g hg => h g (by simp [hg]))
      obtain ⟨j, hj⟩ := h f (by simp)
      refine ⟨max N (j + 1), ?_⟩
      intro fuel hfuel r
      have h1 := readFile_ends L count offset f j fuel 0 r (by omega) (by simpa using hj)
      simp only [readFiles]
      cases hr : readFile L count offset f fuel 0 r with
      | none => exact absurd hr h1
      | some fl =>
        cases fl with
        | next r1 => exact hN fuel (by omega) r1
        | returned r1 => simp
        | panicked => simp
  obtain ⟨N, hN⟩ := key files hend
  refine ⟨N, fun fuel hfuel => ?_⟩
  rw [ReadTo_eq_result]
  have := hN fuel hfuel ⟨0, 0, [], events⟩
  cases h : readFiles L count offset fuel files ⟨0, 0, [], events⟩ with
  | none => exact absurd h this
  | some fl => simp

/-- A segment closed in the middle of the scan ends its scan without error: of the segment
`a`, `b` only the first chunk is read before the file is closed, and the scan goes on with
the next segment `c`. -/
theorem ReadTo_closed_midscan :
    ReadTo 2 [closedAfter 2 1 [97, 10, 98, 10], regularFile 2 [99, 10]] 3 0 [[], [], []] 3
      = some (.ok [[97], [99], []]) := by
  decide

/-- While a slot below `count` is free, one step of the scan does not panic and leaves a
slot below `count` free unless it returns. -/
theorem scanByte_safe (c : Nat) (offset : Int) (v : Byte) (r : read)
    (hs : r.eventsSaved < c) (hl : c ≤ r.events.length) :
    scanByte c offset v r ≠ .panicked ∧
    ∀ r1, scanByte c offset v r = .next r1 → r1.eventsSaved < c ∧ c ≤ r1.events.length := by
  have hlt : r.eventsSaved < r.events.length := by omega
  by_cases hv : v = LineBreak
  · by_cases hle : ((r.eventsCount : Int) + 1) ≤ offset
    · simp only [scanByte, hv, if_true, Nat.cast_add, Nat.cast_one, hle]
      refine ⟨by simp, ?_⟩
      intro r1 h1
      injection h1 with h1
      subst h1
      exact ⟨hs, hl⟩
    · by_cases heq : ((r.eventsSaved : Int) + 1) = c
      · simp only [scanByte, hv, if_true, Nat.cast_add, Nat.cast_one, hle, if_false, hlt, heq]
        exact ⟨by simp, fun r1 h1 => by cases h1⟩
      · simp only [scanByte, hv, if_true, Nat.cast_add, Nat.cast_one, hle, if_false, hlt, heq]
        refine ⟨by simp, ?_⟩
        intro r1 h1
        injection h1 with h1
        subst h1
        have hne : r.eventsSaved + 1 ≠ c := fun hh => heq (by exact_mod_cast hh)
        simp only [List.length_set]
        exact ⟨by omega, hl⟩
  · by_cases hge : (r.eventsCount : Int) ≥ offset
    · simp only [scanByte, hv, if_false, hge, if_true]
      refine ⟨by split <;> simp, ?_⟩
      intro r1 h1
      split at h1 <;>
        (injection h1 with h1
         subst h1
         exact ⟨hs, hl⟩)
    · simp only [scanByte, hv, if_false, hge]
      refine ⟨by split <;> simp, ?_⟩
      intro r1 h1
      split at h1 <;>
        (injection h1 with h1
         subst h1
         exact ⟨hs, hl⟩)

theorem scanChunk_safe (c : Nat) (offset : Int) (bytes : List Byte) (r : read)
    (hs : r.eventsSaved < c) (hl : c ≤ r.events.length) :
    scanChunk c offset bytes r ≠ .panicked ∧
    ∀ r1, scanChunk c offset bytes r = .next r1 →
      r1.eventsSaved < c ∧ c ≤ r1.events.length := by
  induction bytes generalizing r with
  | nil =>
    simp only [scanChunk]
    refine ⟨by simp, ?_⟩
    intro r1 h1
    injection h1 with h1
    subst h1
    exact ⟨hs, hl⟩
  | cons v rest ih =>
    have hb := scanByte_safe c offset v r hs hl
    simp only [scanChunk]
    cases h : scanByte c offset v r with
    | next r2 =>
      have h2 := hb.2 r2 h
      exact ih r2 h2.1 h2.2
    | returned r2 => exact ⟨by simp, fun r1 h1 => by cases h1⟩
    | panicked => exact absurd h hb.1

theorem readFile_safe (L : Nat) (c : Nat) (offset : Int) (file : ReadableFile) (fuel : Nat) :
    ∀ (off : Nat) (r : read), r.eventsSaved < c → c ≤ r.events.length →
      readFile L c offset file fuel off r ≠ some .panicked ∧
      ∀ r1, readFile L c offset file fuel off r = some (.next r1) →
        r1.eventsSaved < c ∧ c ≤ r1.events.length := by
  induction fuel with
  | zero =>
    intro off r _ _
    simp [readFile]
  | succ n ih =>
    intro off r hs hl
    simp only [readFile]
    split
    · refine ⟨by simp, ?_⟩
      intro r1 h1
      simp only [Option.some.injEq, Flow.next.injEq] at h1
      subst h1
      exact ⟨hs, hl⟩
    · have hc := scanChunk_safe c offset (file off).bytes r hs hl
      cases h : scanChunk c offset (file off).bytes r with
      | next r2 =>
        have h2 := hc.2 r2 h
        exact ih (off + L) r2 h2.1 h2.2
      | returned r2 => exact ⟨by simp, fun r1 h1 => by simp at h1⟩
      | panicked => exact absurd h hc.1

theorem readFiles_safe (L : Nat) (c : Nat) (offset : Int) (fuel : Nat)
    (files : List ReadableFile) :
    ∀ (r : read), r.eventsSaved < c → c ≤ r.events.length →
      readFiles L c offset fuel files r ≠ some .panicked := by
  induction files with
  | nil => intro r _ _; simp [readFiles]
  | cons f tl ih =>
    intro r hs hl
    have hf := readFile_safe L c offset f fuel 0 r hs hl
    simp only [readFiles]
    cases h : readFile L c offset f fuel 0 r with
    | none => simp
    | some fl =>
      cases fl with
      | next r1 =>
        have h2 := hf.2 r1 h
        exact ih r1 h2.1 h2.2
      | returned r1 => simp
      | panicked => exact absurd h hf.1

/-- For `count ≥ 1` and an output slice of at least `count` slots, `ReadTo` never assigns
out of range, whatever the files answer: every assignment `events[eventsSaved]` has
`eventsSaved < count`. -/
theorem ReadTo_no_panic_of_pos (L : Nat) (files : List ReadableFile) (count : Nat)
    (offset : Int) (events : List (List Byte)) (fuel : Nat) (hc : 1 ≤ count)
    (hev : count ≤ events.length) :
    ReadTo L files count offset events fuel ≠ some .panic := by
  have h := readFiles_safe L count offset fuel files ⟨0, 0, [], events⟩ (by simpa using hc)
    (by simpa using hev)
  rw [ReadTo_eq_result]
  cases hr : readFiles L count offset fuel files ⟨0, 0, [], events⟩ with
  | none => simp
  | some fl =>
    cases fl with
    | next r1 => simp [Flow.result]
    | returned r1 => simp [Flow.result]
    | panicked => exact absurd hr h

/-- C18 fails at `count = 0`: with the output slice of length 0 that `Read` makes for
`count = 0`, over a store holding the single record `a`, `ReadTo` reaches the assignment
`events[0]`, which is out of range. -/
theorem C18_assignment_out_of_range :
    ReadTo 4 [regularFile 4 [97, 10]] 0 0 [] 2 = some .panic := by
  decide

end eventstorage
